import Mathlib

/-!
# Verification of the `lazy-scheduler` core engine

A shallow embedding of the core scheduling engine (`src/core/` of the
repository): the calendar model with forward/reverse time-window
enumeration, the task data model with blocking transitions and
remaining-time derivation, fuzzy deadline resolution, calendar-aware time
projection, and the priority-driven greedy allocator.

## Modelling conventions

* `chrono` stores naive dates, times and durations with nanosecond
  precision and exact integer arithmetic, so the embedding uses plain
  integers:
  - `NDate := Int` — days since the epoch day 0 (day 0 is a Thursday,
    matching 1970-01-01, which fixes ISO weekday arithmetic);
  - `NTime := Int` — nanoseconds since midnight within a day;
  - `NDateTime := Int` — nanoseconds since epoch midnight; the date
    component is the floor of division by a day, matching `chrono`'s
    civil split;
  - `TDuration := Int` — a signed time span in nanoseconds;
  `chrono`'s `NaiveTime + Duration` wrap-around at midnight is not
  modelled; no engine code path relies on wrapping.
* The `f64` priority arithmetic of the scheduler is modelled by exact
  fractions (`Frac`, an unreduced numerator/denominator pair; a zero
  denominator models an infinite or NaN value, driving the `is_finite`
  checks).  On the concrete inputs used in this development every `f64`
  operation the scheduler performs is exact, so the exact model agrees
  with the floating-point computation there.
* Rust `BTreeSet` / `BTreeMap` are modelled as (sorted) lists and
  association lists; sortedness is carried as a hypothesis where a proof
  needs it, mirroring the container invariant.
* Rust `panic!` / `unwrap` / `expect` and non-termination of unbounded
  recursion are modelled by `Option`/`Except`: `none` is a computation
  that does not return normally.  Loops whose termination is not
  structural take explicit fuel and return `none` on exhaustion, so a
  `some` result always witnesses a genuinely terminating run.
-/

namespace LazyScheduler

/-- Days since the epoch (epoch day 0 = a Thursday, as 1970-01-01). -/
abbrev NDate := Int

/-- Nanoseconds since midnight. -/
abbrev NTime := Int

/-- Nanoseconds since epoch midnight. -/
abbrev NDateTime := Int

/-- A signed span of nanoseconds. -/
abbrev TDuration := Int

/-- Nanoseconds per minute. -/
def nsPerMinute : Int := 60000000000

/-- Nanoseconds per day. -/
def nsPerDay : Int := 1440 * nsPerMinute

/-- `Duration::minutes`. -/
def mins (n : Int) : TDuration := n * nsPerMinute

/-- `NaiveDateTime::date`: the civil date containing the instant
(floor division, as the time-of-day component is nonnegative). -/
def dateOf (dt : NDateTime) : NDate := dt / nsPerDay

/-- `NaiveDateTime::time`: nanoseconds since that date's midnight. -/
def timeOf (dt : NDateTime) : NTime := dt % nsPerDay

/-- `NaiveDate::and_time`. -/
def andTime (d : NDate) (t : NTime) : NDateTime := d * nsPerDay + t

/-- `Duration::num_minutes`: whole minutes, truncated toward zero. -/
def numMinutes (q : TDuration) : Int := Int.tdiv q nsPerMinute

/-- `chrono` division of a `Duration` by an integer (exact to the
nanosecond, truncated toward zero). -/
def durDiv (q : TDuration) (k : Int) : TDuration := Int.tdiv q k

/-- Association-list lookup (models `BTreeMap::get` / `HashMap::get`). -/
def alookup {α β : Type} [DecidableEq α] (k : α) : List (α × β) → Option β
  | [] => none
  | (k', v) :: rest => if k' = k then some v else alookup k rest

/-- Association-list insert-or-replace (models `BTreeMap::insert` /
`HashMap::insert`; keeps first-insertion order, which no claim observes). -/
def ainsert {α β : Type} [DecidableEq α] (k : α) (v : β) :
    List (α × β) → List (α × β)
  | [] => [(k, v)]
  | (k', v') :: rest =>
      if k' = k then (k, v) :: rest else (k', v') :: ainsert k v rest

theorem alookup_ainsert {α β : Type} [DecidableEq α] (k k' : α) (v : β)
    (l : List (α × β)) :
    alookup k' (ainsert k v l) = if k = k' then some v else alookup k' l := by
  induction l with
  | nil => simp [ainsert, alookup]
  | cons hd tl ih =>
      obtain ⟨k₀, v₀⟩ := hd
      by_cases h0 : k₀ = k
      · subst h0
        by_cases h1 : k₀ = k'
        · subst h1; simp [ainsert, alookup]
        · simp only [ainsert, if_pos rfl, alookup, if_neg h1]
      · by_cases h1 : k₀ = k'
        · subst h1
          have : ¬ k = k₀ := fun h => h0 h.symm
          simp [ainsert, alookup, h0, this]
        · simp [ainsert, alookup, h0, h1, ih]

/-! ## Calendar (`src/core/calendar.rs`) -/

/-- `ScheduleItem`: a pre-committed busy interval within a day. -/
structure ScheduleItem where
  start : NTime
  duration : TDuration
  note : Option String
deriving DecidableEq

/-- `CalendarDay`: per-day working-time overrides plus the day's busy items.
The `scheduledItems` list models the `BTreeSet<ScheduleItem>`: its invariant
is ascending `(start, duration, note)` order, carried as a hypothesis where
a proof needs it. -/
structure CalendarDay where
  workStartTime : Option NTime
  workEndTime : Option NTime
  scheduledItems : List ScheduleItem
deriving DecidableEq

/-- `CalendarDay::EMPTY` / the fresh day built by `add_working_day`. -/
def CalendarDay.emptyDay : CalendarDay :=
  { workStartTime := none, workEndTime := none, scheduledItems := [] }

/-- Insert into a sorted duplicate-free list (models `BTreeSet::insert`). -/
def setInsert (d : Int) : List Int → List Int
  | [] => [d]
  | x :: rest =>
      if d < x then d :: x :: rest
      else if d = x then x :: rest
      else x :: setInsert d rest

/-- `Calendar`: official workdays (`BTreeSet<NaiveDate>`, modelled as an
ascending list), the default working window, and the per-day map
(`BTreeMap<NaiveDate, CalendarDay>`, modelled as an association list). -/
structure Calendar where
  officialDays : List NDate
  workingTime : NTime × NTime
  calendarDays : List (NDate × CalendarDay)

/-- `Calendar::add_working_day`: register the date in the day map (always a
fresh empty `CalendarDay`) and, if `official`, in the official-day set. -/
def Calendar.addWorkingDay (cal : Calendar) (date : NDate) (official : Bool) :
    Calendar :=
  { cal with
    officialDays := if official then setInsert date cal.officialDays
                    else cal.officialDays,
    calendarDays := ainsert date CalendarDay.emptyDay cal.calendarDays }

/-- `Calendar::working_time(date)`: per-day overrides where set, else the
calendar default; `none` when the date is unknown. -/
def Calendar.workingTimeOn (cal : Calendar) (date : NDate) :
    Option (NTime × NTime) :=
  (alookup date cal.calendarDays).map fun day =>
    (day.workStartTime.getD cal.workingTime.1,
     day.workEndTime.getD cal.workingTime.2)

/-- `Calendar::official_workdays(start_at)`: ascending iteration skipping
days before `start_at` (`skip_while` on the sorted official set). -/
def Calendar.officialWorkdays (cal : Calendar) (startAt : NDate) : List NDate :=
  cal.officialDays.dropWhile (fun d => decide (d < startAt))

/-- `Calendar::is_official_workday`. -/
def Calendar.isOfficialWorkday (cal : Calendar) (date : NDate) : Bool :=
  cal.officialDays.contains date

/-- `Calendar::previous_official_workday`: greatest official day strictly
before `date` (`range(..date).next_back()` on the sorted set). -/
def Calendar.previousOfficialWorkday (cal : Calendar) (date : NDate) :
    Option NDate :=
  (cal.officialDays.filter (fun d => decide (d < date))).getLast?

/-- `TimeKind`: Available, or Busy with an optional note. -/
inductive TimeKind where
  | available : TimeKind
  | busy : Option String → TimeKind
deriving DecidableEq

/-- `TimeWindow`: a time interval on one day.  `stop` models the source
field `end` (a Lean keyword). -/
structure TimeWindow where
  kind : TimeKind
  date : NDate
  start : NTime
  stop : NTime
deriving DecidableEq

/-- `TimeWindow::start_datetime`. -/
def TimeWindow.startDatetime (w : TimeWindow) : NDateTime := andTime w.date w.start

/-- `TimeWindow::end_datetime`. -/
def TimeWindow.endDatetime (w : TimeWindow) : NDateTime := andTime w.date w.stop

/-- `TimeWindow::available`. -/
def TimeWindow.available (w : TimeWindow) : Bool :=
  match w.kind with
  | .available => true
  | .busy _ => false

/-- Stable insertion of an item into a list sorted by `start` (the inserted
item goes after items with an equal key, as a stable sort does). -/
def insertByStart (x : ScheduleItem) : List ScheduleItem → List ScheduleItem
  | [] => [x]
  | h :: t => if x.start < h.start then x :: h :: t else h :: insertByStart x t

/-- `busy.sort_by_key(|item| item.start)`: a stable sort by start time. -/
def sortByStart : List ScheduleItem → List ScheduleItem
  | [] => []
  | h :: t => insertByStart h (sortByStart t)

/-- One day of `Calendar::time_windows`: the per-day loop body of the
forward enumeration (steps 1–5 of the source). -/
def Calendar.windowsOfDayFwd (cal : Calendar) (fromDT : NDateTime)
    (date : NDate) : List TimeWindow :=
  let wt := (cal.workingTimeOn date).getD cal.workingTime
  let busy := sortByStart
    (((alookup date cal.calendarDays).map (·.scheduledItems)).getD [])
  let windowStart0 : NTime :=
    if date = dateOf fromDT ∧ wt.1 < timeOf fromDT then timeOf fromDT else wt.1
  let step := fun (acc : NTime × List TimeWindow) (item : ScheduleItem) =>
    let ws' :=
      if acc.1 < item.start then
        acc.2 ++
          [{ kind := .available, date := date, start := acc.1,
             stop := item.start },
           { kind := .busy item.note, date := date, start := item.start,
             stop := item.start + item.duration }]
      else acc.2
    (min (item.start + item.duration) wt.2, ws')
  let res := busy.foldl step (windowStart0, [])
  res.2 ++
    (if res.1 < wt.2 then
      [{ kind := .available, date := date, start := res.1, stop := wt.2 }]
     else [])

/-- `Calendar::time_windows(from)`: forward enumeration over official
workdays at or after `from`'s date. -/
def Calendar.timeWindows (cal : Calendar) (fromDT : NDateTime) :
    List TimeWindow :=
  (cal.officialWorkdays (dateOf fromDT)).flatMap (cal.windowsOfDayFwd fromDT)

/-- One day of `Calendar::time_windows_rev`: the per-day loop body of the
reverse enumeration.  The source walks `scheduled_items.iter().rev()`, the
reverse of the `BTreeSet` order, modelled as `.reverse` of the stored list. -/
def Calendar.windowsOfDayRev (cal : Calendar) (untilDT : NDateTime)
    (date : NDate) : List TimeWindow :=
  let wt := (cal.workingTimeOn date).getD cal.workingTime
  let items := ((alookup date cal.calendarDays).map (·.scheduledItems)).getD []
  let windowEnd0 : NTime :=
    if date = dateOf untilDT then min wt.2 (timeOf untilDT) else wt.2
  let step := fun (acc : NTime × List TimeWindow) (item : ScheduleItem) =>
    let itemEnd := min (item.start + item.duration) acc.1
    let ws' :=
      if itemEnd < acc.1 then
        acc.2 ++
          [{ kind := .busy item.note, date := date, start := item.start,
             stop := item.start + item.duration },
           { kind := .available, date := date, start := itemEnd,
             stop := acc.1 }]
      else acc.2
    (max item.start wt.1, ws')
  let res := items.reverse.foldl step (windowEnd0, [])
  res.2 ++
    (if wt.1 < res.1 then
      [{ kind := .available, date := date, start := wt.1, stop := res.1 }]
     else [])

/-- `Calendar::time_windows_rev(until)`: official days at or before
`until`'s date (`range(..=d)`), iterated in descending order. -/
def Calendar.timeWindowsRev (cal : Calendar) (untilDT : NDateTime) :
    List TimeWindow :=
  ((cal.officialDays.filter (fun d => decide (d ≤ dateOf untilDT))).reverse).flatMap
    (cal.windowsOfDayRev untilDT)

/-- The `tupled` helper of the repository's calendar tests:
`(start_datetime, end_datetime)` pairs of a window sequence. -/
def tupled (ws : List TimeWindow) : List (NDateTime × NDateTime) :=
  ws.map fun w => (w.startDatetime, w.endDatetime)

/-! ## C10: `add_working_day` replaces the day-map entry -/

/-- C10.  For every calendar and date, `add_working_day(date, official)`
replaces the date's entry in the day map with a fresh empty `CalendarDay`
(discarding any working-time overrides and scheduled busy items previously
stored for that date, even when the date was already registered), and
leaves every other date's entry unchanged. -/
theorem addWorkingDay_replaces_day (cal : Calendar) (date : NDate)
    (official : Bool) (d : NDate) :
    alookup d (cal.addWorkingDay date official).calendarDays =
      if date = d then some CalendarDay.emptyDay
      else alookup d cal.calendarDays := by
  simp [Calendar.addWorkingDay, alookup_ainsert]

/-! ## C4: forward and reverse window enumeration

The claim states that for every calendar and `from ≤ until`, the reversed
`(start_dt, end_dt)` sequence of `time_windows(from)` (truncated at
`until`) equals the sequence of `time_windows_rev(until)` (truncated at
`from`).  The repository's own test `test_single_busy_item` asserts this
on a calendar with one busy item 11:00–12:30 inside a 09:00–17:00 workday
and `from`/`until` at the day boundaries (so both truncations are the
identity) — and the code falsifies it: `time_windows` emits the Busy
window between the two Available gaps, while `time_windows_rev` emits each
Busy window *before* the Available gap to its right, so the reverse
enumeration is not the reversal of the forward one. -/

/-- The calendar of the repository's `test_single_busy_item`: default
working time 09:00–17:00 (minutes 540–1020), one official workday (day
20000), one busy item 11:00–12:30 (start 660 min, duration 90 min). -/
def c4cal : Calendar :=
  { officialDays := [20000],
    workingTime := (mins 540, mins 1020),
    calendarDays := [(20000, ⟨none, none, [⟨mins 660, mins 90, none⟩]⟩)] }

/-- C4 (falsified at the repository's own test input).  On `c4cal`, with
`from` = 09:00 and `until` = 17:00 of the single workday (truncation at
`until`/`from` is the identity), the reversed tuple sequence of
`time_windows(from)` differs from the tuple sequence of
`time_windows_rev(until)`: the forward sequence reversed is
`[(12:30,17:00), (11:00,12:30), (9:00,11:00)]` while the reverse
enumeration yields `[(11:00,12:30), (12:30,17:00), (9:00,11:00)]`. -/
theorem timeWindows_rev_mismatch :
    (tupled (c4cal.timeWindows (andTime 20000 (mins 540)))).reverse ≠
      tupled (c4cal.timeWindowsRev (andTime 20000 (mins 1020))) := by
  decide

/-! ## Civil-calendar arithmetic

`chrono`'s proleptic-Gregorian date arithmetic (`with_day(1)`, `month()`,
`iter_days`, ISO weeks) over day numbers, via the standard
days-from-civil / civil-from-days conversions.  Epoch day 0 = 1970-01-01,
a Thursday. -/

/-- Civil `(year, month, day)` of an epoch day number. -/
def civilFromDays (z0 : NDate) : Int × Int × Int :=
  let z := z0 + 719468
  let era := z / 146097
  let doe := z - era * 146097
  let yoe := (doe - doe / 1460 + doe / 36524 - doe / 146096) / 365
  let doy := doe - (365 * yoe + yoe / 4 - yoe / 100)
  let mp := (5 * doy + 2) / 153
  let d := doy - (153 * mp + 2) / 5 + 1
  let m := mp + (if mp < 10 then 3 else -9)
  (yoe + era * 400 + (if m ≤ 2 then 1 else 0), m, d)

/-- Epoch day number of a civil `(year, month, day)`. -/
def daysFromCivil (y0 m d : Int) : NDate :=
  let y := y0 - (if m ≤ 2 then 1 else 0)
  let era := y / 400
  let yoe := y - era * 400
  let mp := m + (if 2 < m then -3 else 9)
  let doy := (153 * mp + 2) / 5 + d - 1
  let doe := yoe * 365 + yoe / 4 - yoe / 100 + doy
  era * 146097 + doe - 719468

/-- `NaiveDate::month`. -/
def monthOf (z : NDate) : Int := (civilFromDays z).2.1

/-- `NaiveDate::with_day(1)` (always succeeds: every month has a day 1). -/
def withDay1 (z : NDate) : NDate :=
  let c := civilFromDays z
  daysFromCivil c.1 c.2.1 1

/-- `date.week(Weekday::Mon).first_day()`: the Monday at or before the
date (epoch day 0 is a Thursday, three days after a Monday). -/
def mondayOf (z : NDate) : NDate := z - ((z + 3) % 7)

/-- `start_of_month.iter_days().take_while(|d| d.month() == month)`:
consecutive days sharing the given month.  The iterator is consumed by
`.last()`; 32 units of fuel cover any civil month (at most 31 days). -/
def iterDaysWhileMonth : Nat → NDate → Int → List NDate
  | 0, _, _ => []
  | fuel + 1, d, m =>
      if monthOf d = m then d :: iterDaysWhileMonth fuel (d + 1) m else []

/-- The `.last().expect("last")` of the `MonthEnds` branch: the list is
nonempty because its first candidate day shares the month. -/
def monthEndOf (z : NDate) : NDate :=
  let som := withDay1 z
  (iterDaysWhileMonth 32 som (monthOf som)).getLastD som

/-! ## Deadlines (`src/core/deadline.rs`) -/

/-- `FuzzyDeadlineKind` (the `u16` parameter is modelled as `Nat`). -/
inductive FuzzyDeadlineKind where
  | businessDays : Nat → FuzzyDeadlineKind
  | fridayOfWeeks : Nat → FuzzyDeadlineKind
  | weeks : Nat → FuzzyDeadlineKind
  | monthEnds : Nat → FuzzyDeadlineKind
  | months : Nat → FuzzyDeadlineKind
deriving DecidableEq

/-- `FuzzyDeadline`: reference instant, kind, optional time-of-day. -/
structure FuzzyDeadline where
  referenceDate : NDateTime
  kind : FuzzyDeadlineKind
  time : Option NTime
deriving DecidableEq

/-- `FuzzyDeadline::resolve_with_calendar`: raw civil-date computation per
kind (only `BusinessDays` can fail), then rounding a non-official result
down to the previous official workday, then attaching the time of day. -/
def FuzzyDeadline.resolveWithCalendar (fd : FuzzyDeadline) (cal : Calendar)
    (defaultDeadlineTime : NTime) : Except String NDateTime :=
  let baseDate := dateOf fd.referenceDate
  let raw : Except String NDate :=
    match fd.kind with
    | .businessDays day =>
        match (cal.officialWorkdays baseDate).get? day with
        | some d => .ok d
        | none => .error "workday not found"
    | .fridayOfWeeks week =>
        let startOfWeek := mondayOf baseDate
        let friday := startOfWeek + 4
        let week' := startOfWeek + 7 * (week : Int)
        .ok (week' + (friday - startOfWeek))
    | .weeks week => .ok (baseDate + 7 * (week : Int))
    | .monthEnds _ => .ok (monthEndOf baseDate)
    | .months month => .ok (withDay1 baseDate + 7 * (4 * (month : Int)))
  raw.map fun rawDate =>
    let deadlineDate :=
      if ¬ cal.isOfficialWorkday rawDate then
        match cal.previousOfficialWorkday rawDate with
        | some prev => prev
        | none => rawDate
      else rawDate
    andTime deadlineDate (fd.time.getD defaultDeadlineTime)

/-- `Deadline`: none / unknown / exact / fuzzy. -/
inductive Deadline where
  | noDeadline : Deadline
  | unknown : Deadline
  | exact : NDateTime → Deadline
  | fuzzy : FuzzyDeadline → Deadline
deriving DecidableEq

/-- `Deadline::resolve_with_calendar`: `None`/`Unknown` resolve to no
deadline, `Exact` to itself, `Fuzzy` via the calendar. -/
def Deadline.resolveWithCalendar (dl : Deadline) (cal : Calendar)
    (defaultDeadlineTime : NTime) : Except String (Option NDateTime) :=
  match dl with
  | .noDeadline => .ok none
  | .unknown => .ok none
  | .exact deadline => .ok (some deadline)
  | .fuzzy fd =>
      (fd.resolveWithCalendar cal defaultDeadlineTime).map fun r => some r

/-! ## C7: deadline resolution with a calendar -/

/-- On a strictly sorted list (the `BTreeSet` invariant of the official-day
set), skipping the days before `a` is the same as keeping the days at or
after `a`. -/
theorem dropWhile_lt_eq_filter_le (a : Int) (l : List Int)
    (hs : l.Sorted (· < ·)) :
    l.dropWhile (fun d => decide (d < a)) = l.filter (fun d => decide (a ≤ d)) := by
  induction l with
  | nil => rfl
  | cons x xs ih =>
      rw [List.sorted_cons] at hs
      by_cases hx : x < a
      · rw [List.dropWhile_cons_of_pos (by simpa using hx),
            List.filter_cons_of_neg (by simpa using not_le.mpr hx)]
        exact ih hs.2
      · rw [List.dropWhile_cons_of_neg (by simpa using hx),
            List.filter_cons_of_pos (by simpa using not_lt.mp hx)]
        have : xs.filter (fun d => decide (a ≤ d)) = xs := by
          apply List.filter_eq_self.mpr
          intro y hy
          simpa using le_of_lt (lt_of_le_of_lt (not_lt.mp hx) (hs.1 y hy))
        rw [this]

/-- The n-th entry of the official days at or after a date is an official
workday. -/
theorem isOfficialWorkday_of_filter_get (cal : Calendar) (a : NDate) (n : Nat)
    (day : NDate)
    (h : (cal.officialDays.filter (fun d => decide (a ≤ d))).get? n = some day) :
    cal.isOfficialWorkday day = true := by
  have hmem : day ∈ cal.officialDays.filter (fun d => decide (a ≤ d)) :=
    List.get?_mem h
  have : day ∈ cal.officialDays := List.mem_of_mem_filter hmem
  simpa [Calendar.isOfficialWorkday] using this

/-- C7.  For every calendar whose official-day set satisfies its sortedness
invariant, `resolve_with_calendar` on `BusinessDays(n)` returns the n-th
official workday at or after the reference date (0-indexed, so `n = 0` is
the reference date itself when official, else the first official day after
it), combined with the deadline time, and it returns an error exactly when
that workday does not exist; the other kinds (`FridayOfWeeks`, `Weeks`,
`MonthEnds`, `Months`) never return an error. -/
theorem resolveWithCalendar_spec (cal : Calendar)
    (hs : cal.officialDays.Sorted (· < ·)) (r : NDateTime) (tm : Option NTime)
    (dflt : NTime) (n : Nat) :
    ((∀ day,
        (cal.officialDays.filter (fun d => decide (dateOf r ≤ d))).get? n
          = some day →
        (FuzzyDeadline.mk r (.businessDays n) tm).resolveWithCalendar cal dflt
          = .ok (andTime day (tm.getD dflt))) ∧
      ((cal.officialDays.filter (fun d => decide (dateOf r ≤ d))).get? n
          = none →
        ∃ e, (FuzzyDeadline.mk r (.businessDays n) tm).resolveWithCalendar
          cal dflt = .error e)) ∧
    ∀ k ∈ [FuzzyDeadlineKind.fridayOfWeeks n, .weeks n, .monthEnds n,
           .months n],
      ∃ v, (FuzzyDeadline.mk r k tm).resolveWithCalendar cal dflt = .ok v := by
  have hdrop : ∀ m : Nat,
      (cal.officialWorkdays (dateOf r)).get? m
        = (cal.officialDays.filter (fun d => decide (dateOf r ≤ d))).get? m := by
    intro m
    rw [Calendar.officialWorkdays, dropWhile_lt_eq_filter_le _ _ hs]
  refine ⟨⟨?_, ?_⟩, ?_⟩
  · intro day hday
    have hofficial := isOfficialWorkday_of_filter_get cal (dateOf r) n day hday
    simp only [FuzzyDeadline.resolveWithCalendar, hdrop n, hday, Except.map]
    simp [hofficial]
  · intro hnone
    refine ⟨"workday not found", ?_⟩
    simp only [FuzzyDeadline.resolveWithCalendar, hdrop n, hnone, Except.map]
  · intro k hk
    fin_cases hk <;>
      exact ⟨_, rfl⟩

/-- The calendar of the C7 witness: three official workdays 20208–20210
(2025-04-30 … 2025-05-02), no busy items. -/
def c7cal : Calendar :=
  { officialDays := [20208, 20209, 20210],
    workingTime := (mins 540, mins 1020),
    calendarDays := [] }

/-- The fuzzy deadline of the C7 witness: reference 2025-04-30,
`BusinessDays(1)`, no explicit time of day. -/
def c7fd : FuzzyDeadline :=
  { referenceDate := andTime 20208 0, kind := .businessDays 1, time := none }

/-- Witness for C7 at a concrete input: with reference 2025-04-30 on
`c7cal`, `BusinessDays(1)` resolves to 2025-05-01 at the default deadline
time. -/
theorem resolveWithCalendar_spec_witness :
    c7cal.officialDays.Sorted (· < ·) ∧
      c7fd.resolveWithCalendar c7cal (mins 1200)
        = .ok (andTime 20209 (mins 1200)) := by
  have hs : c7cal.officialDays.Sorted (· < ·) := by
    simp only [c7cal]; decide
  refine ⟨hs, ?_⟩
  have h := (resolveWithCalendar_spec c7cal hs
    (andTime 20208 0) none (mins 1200) 1).1.1 20209 (by decide)
  exact h

/-! ## Estimates (`src/core/estimate.rs`) -/

/-- `Estimate`: three-point PERT-style estimate. -/
structure Estimate where
  mostLikely : TDuration
  optimistic : TDuration
  pessimistic : TDuration
deriving DecidableEq

/-- `Estimate::new`: a degenerate estimate with all three points equal. -/
def Estimate.new (mostLikely : TDuration) : Estimate :=
  ⟨mostLikely, mostLikely, mostLikely⟩

/-- `Estimate::mean`: the PERT mean `(opt + 4·ml + pes) / 6`. -/
def Estimate.mean (e : Estimate) : TDuration :=
  durDiv (e.optimistic + e.mostLikely * 4 + e.pessimistic) 6

/-- `Estimate::stddev`: `(pes − opt) / 6`. -/
def Estimate.stddev (e : Estimate) : TDuration :=
  durDiv (e.pessimistic - e.optimistic) 6

/-! ## Tasks (`src/core/task.rs`)

`TaskID` is an opaque unique token (a UUID in the source); all the engine
uses is equality and the `BTreeMap` key order, so it is modelled as `Nat`.
The display-only fields (`id`, stored as the map key here) carry no logic. -/

abbrev TaskID := Nat

/-- `ExternalBlockingReason`. -/
structure ExternalBlockingReason where
  note : Option String
  mayUnblockAt : Deadline
  lastUpdated : NDateTime
deriving DecidableEq

/-- `BlockingStatus`: the task is gated by zero-or-more tasks and
zero-or-more external conditions. -/
structure BlockingStatus where
  tasks : List TaskID
  externals : List ExternalBlockingReason
deriving DecidableEq

/-- `BlockingStatus::by_task`. -/
def BlockingStatus.byTask (taskIds : List TaskID) : BlockingStatus :=
  ⟨taskIds, []⟩

/-- `BlockingStatus::by_external`. -/
def BlockingStatus.byExternal (reason : ExternalBlockingReason) :
    BlockingStatus :=
  ⟨[], [reason]⟩

/-- Stable insertion into an ascending id list. -/
def insertID (x : TaskID) : List TaskID → List TaskID
  | [] => [x]
  | h :: t => if x < h then x :: h :: t else h :: insertID x t

/-- `Vec::sort`: stable ascending sort. -/
def sortIDs : List TaskID → List TaskID
  | [] => []
  | h :: t => insertID h (sortIDs t)

/-- `Vec::dedup`: drop consecutive duplicates, keeping the first. -/
def dedupIDs : List TaskID → List TaskID
  | [] => []
  | [x] => [x]
  | x :: y :: t =>
      if x = y then dedupIDs (y :: t) else x :: dedupIDs (y :: t)

/-- `BlockingStatus::block_by_task`: extend, sort, dedup. -/
def BlockingStatus.blockByTask (bs : BlockingStatus)
    (taskIds : List TaskID) : BlockingStatus :=
  { bs with tasks := dedupIDs (sortIDs (bs.tasks ++ taskIds)) }

/-- `BlockingStatus::block_by_external`: push the reason. -/
def BlockingStatus.blockByExternal (bs : BlockingStatus)
    (reason : ExternalBlockingReason) : BlockingStatus :=
  { bs with externals := bs.externals ++ [reason] }

/-- `BlockingStatus::unblock_task`: retain every other id. -/
def BlockingStatus.unblockTask (bs : BlockingStatus) (taskId : TaskID) :
    BlockingStatus :=
  { bs with tasks := bs.tasks.filter (fun t => decide (t ≠ taskId)) }

/-- `BlockingStatus::unblock_external`: remove the indexed reason when the
index is in bounds. -/
def BlockingStatus.unblockExternal (bs : BlockingStatus)
    (reasonIndex : Nat) : BlockingStatus :=
  if reasonIndex < bs.externals.length then
    { bs with externals := bs.externals.eraseIdx reasonIndex }
  else bs

/-- `BlockingStatus::is_ready`: both lists empty. -/
def BlockingStatus.isReady (bs : BlockingStatus) : Bool :=
  bs.tasks.isEmpty && bs.externals.isEmpty

/-- `TaskStatus`: Ready / Blocked / Completed(at) / Dropped. -/
inductive TaskStatus where
  | ready : TaskStatus
  | blocked : BlockingStatus → TaskStatus
  | completed : NDateTime → TaskStatus
  | dropped : TaskStatus
deriving DecidableEq

/-- `Task`.  The opaque `id` is the key under which the task is stored; the
other fields follow the source. -/
structure Task where
  title : String
  createdAt : NDateTime
  deadline : Deadline
  status : TaskStatus
  note : Option String
  estimate : Option Estimate
  progress : Option Nat
  actualTotal : TDuration
deriving DecidableEq

/-- `Task::new`: a fresh `Ready` task (creation time passed explicitly; the
source reads the wall clock, which is outside the model). -/
def Task.new (title : String) (createdAt : NDateTime)
    (deadline : Option Deadline) (note : Option String) : Task :=
  { title := title, createdAt := createdAt,
    deadline := deadline.getD Deadline.unknown, status := .ready,
    note := note, estimate := none, progress := none, actualTotal := 0 }

/-- `Task::is_completed`. -/
def Task.isCompleted (t : Task) : Bool :=
  match t.status with
  | .completed _ => true
  | _ => false

/-- `Task::is_dropped`. -/
def Task.isDropped (t : Task) : Bool :=
  match t.status with
  | .dropped => true
  | _ => false

/-- `Task::remaining`.  The four arms mirror the source `match` on
`(estimate, progress, actual_total)` (the second source arm
`(_, Some(progress), _)` is reached both with and without an estimate, so
it appears twice here).  `chrono` divisions are exact to the nanosecond
and truncated (`durDiv`); division by a zero progress, a panic in Rust,
is the junk value `durDiv _ 0 = 0` here (no claim exercises it). -/
def Task.remaining (t : Task) : TDuration :=
  match t.estimate, t.progress with
  | some estimate, some progress =>
      if t.actualTotal = 0 then
        Estimate.mean estimate
          - durDiv (Estimate.mean estimate) 100 * (progress : Int)
      else
        durDiv t.actualTotal (progress : Int) * (100 - (progress : Int))
  | none, some progress =>
      durDiv t.actualTotal (progress : Int) * (100 - (progress : Int))
  | some estimate, none => Estimate.mean estimate - t.actualTotal
  | none, none =>
      if t.isCompleted || t.isDropped then 0 else mins 5

/-- `Task::drop`. -/
def Task.dropIt (t : Task) : Task := { t with status := .dropped }

/-- `Task::record`. -/
def Task.record (t : Task) (duration : TDuration) : Task :=
  { t with actualTotal := t.actualTotal + duration }

/-- `Task::complete`: progress 100, status Completed. -/
def Task.complete (t : Task) (completedAt : NDateTime) : Task :=
  { t with progress := some 100, status := .completed completedAt }

/-- `Task::block_by_task`: augment an existing Blocked, else enter Blocked
via `BlockingStatus::by_task`. -/
def Task.blockByTask (t : Task) (taskIds : List TaskID) : Task :=
  match t.status with
  | .blocked bs => { t with status := .blocked (bs.blockByTask taskIds) }
  | _ => { t with status := .blocked (BlockingStatus.byTask taskIds) }

/-- `Task::block_by_external`. -/
def Task.blockByExternal (t : Task) (reason : ExternalBlockingReason) :
    Task :=
  match t.status with
  | .blocked bs => { t with status := .blocked (bs.blockByExternal reason) }
  | _ => { t with status := .blocked (BlockingStatus.byExternal reason) }

/-- `Task::unblock_task`: remove the blocker and transition to Ready when
both lists are empty. -/
def Task.unblockTask (t : Task) (taskId : TaskID) : Task :=
  match t.status with
  | .blocked bs =>
      let bs' := bs.unblockTask taskId
      if bs'.isReady then { t with status := .ready }
      else { t with status := .blocked bs' }
  | _ => t

/-- `Task::unblock_external`: remove the indexed reason and transition to
Ready when both lists are empty. -/
def Task.unblockExternal (t : Task) (reasonIndex : Nat) : Task :=
  match t.status with
  | .blocked bs =>
      let bs' := bs.unblockExternal reasonIndex
      if bs'.isReady then { t with status := .ready }
      else { t with status := .blocked bs' }
  | _ => t

/-! ## C6: the remaining-time derivation -/

/-- The remaining-time rule as the specification phrases it (claim C6):
1. `E` and `P` set and `A = 0`: `mean(E) · (100−P) / 100`;
2. else `P` set: `(A/P) · (100−P)`;
3. else `E` set: `mean(E) − A`;
4. else 0 when Completed or Dropped;
5. else 5 minutes. -/
def remainingSpec (t : Task) : TDuration :=
  match t.estimate, t.progress with
  | some e, some p =>
      if t.actualTotal = 0 then
        durDiv (Estimate.mean e * (100 - (p : Int))) 100
      else durDiv t.actualTotal (p : Int) * (100 - (p : Int))
  | none, some p => durDiv t.actualTotal (p : Int) * (100 - (p : Int))
  | some e, none => Estimate.mean e - t.actualTotal
  | none, none => if t.isCompleted || t.isDropped then 0 else mins 5

/-- The PERT mean of a minute-granular estimate is a whole multiple of
10⁷ minutes⁄6·10⁻⁹, in particular divisible by 100 nanoseconds-wise. -/
theorem mean_of_minute_estimate (e : Estimate)
    (ho : nsPerMinute ∣ e.optimistic) (hm : nsPerMinute ∣ e.mostLikely)
    (hp : nsPerMinute ∣ e.pessimistic) :
    ∃ s : Int, Estimate.mean e = 10000000000 * s := by
  obtain ⟨a, ha⟩ := ho
  obtain ⟨b, hb⟩ := hm
  obtain ⟨c, hc⟩ := hp
  refine ⟨a + 4 * b + c, ?_⟩
  have h6 : e.optimistic + e.mostLikely * 4 + e.pessimistic
      = 6 * (10000000000 * (a + 4 * b + c)) := by
    rw [ha, hb, hc]; simp only [nsPerMinute]; ring
  rw [Estimate.mean, durDiv, h6, Int.mul_tdiv_cancel_left _ (by norm_num)]

/-- C6.  For every task whose estimate (when present) is minute-granular —
the engine's data model stores whole-minute durations — `Task::remaining`
returns exactly the specification's piecewise rule `remainingSpec`:
`mean(E)·(100−P)/100` when `E` and `P` are set and `A = 0`; else
`(A/P)·(100−P)` when `P` is set; else `mean(E) − A` when `E` is set; else
0 for Completed/Dropped; else 5 minutes. -/
theorem remaining_eq_remainingSpec (t : Task)
    (h : ∀ e, t.estimate = some e →
      nsPerMinute ∣ e.optimistic ∧ nsPerMinute ∣ e.mostLikely ∧
        nsPerMinute ∣ e.pessimistic) :
    t.remaining = remainingSpec t := by
  unfold Task.remaining remainingSpec
  cases hest : t.estimate with
  | none => cases t.progress <;> rfl
  | some e =>
      cases hprog : t.progress with
      | none => rfl
      | some p =>
          dsimp only
          by_cases hact : t.actualTotal = 0
          · rw [if_pos hact, if_pos hact]
            obtain ⟨s, hs⟩ :=
              mean_of_minute_estimate e (h e hest).1 (h e hest).2.1
                (h e hest).2.2
            rw [hs, durDiv, durDiv]
            have h2 : (10000000000 : Int) * s * (100 - (p : Int))
                = 100 * (100000000 * s * (100 - (p : Int))) := by ring
            rw [h2, Int.mul_tdiv_cancel_left _ (by norm_num)]
            have h1 : (10000000000 : Int) * s
                = 100 * (100000000 * s) := by ring
            rw [h1, Int.mul_tdiv_cancel_left _ (by norm_num)]
            ring
          · rw [if_neg hact, if_neg hact]

/-- The concrete task of the C6 witness: estimate 200 minutes (all three
points), progress 20 %, no actual time. -/
def c6task : Task :=
  { title := "t", createdAt := 0, deadline := .unknown, status := .ready,
    note := none, estimate := some (Estimate.new (mins 200)),
    progress := some 20, actualTotal := 0 }

/-- Witness for C6: on `c6task` the code and the specification rule agree,
both yielding 160 minutes (matching the repository's `test_remaining`). -/
theorem remaining_eq_remainingSpec_witness :
    c6task.remaining = remainingSpec c6task ∧ c6task.remaining = mins 160 := by
  constructor
  · exact remaining_eq_remainingSpec c6task (by
      intro e he
      have : e = Estimate.new (mins 200) := by
        simpa [c6task] using he.symm
      subst this
      refine ⟨⟨200, ?_⟩, ⟨200, ?_⟩, ⟨200, ?_⟩⟩ <;>
        simp [Estimate.new, mins, mul_comm])
  · decide

/-! ## C9: the blocking-status invariant -/

/-- The six public transitions named by claim C9. -/
inductive Trans where
  | blockByTask : List TaskID → Trans
  | blockByExternal : ExternalBlockingReason → Trans
  | unblockTask : TaskID → Trans
  | unblockExternal : Nat → Trans
  | complete : NDateTime → Trans
  | dropTask : Trans
deriving DecidableEq

/-- Apply one public transition (dispatching to the `Task` methods). -/
def applyTrans (t : Task) : Trans → Task
  | .blockByTask ids => t.blockByTask ids
  | .blockByExternal reason => t.blockByExternal reason
  | .unblockTask id => t.unblockTask id
  | .unblockExternal idx => t.unblockExternal idx
  | .complete ts => t.complete ts
  | .dropTask => t.dropIt

/-- Apply a sequence of public transitions. -/
def applyTransList (t : Task) (l : List Trans) : Task :=
  l.foldl applyTrans t

/-- The C9 invariant: a Blocked task has a non-empty union of its
blocking-task list and its external-reason list. -/
def BlockedNonempty (t : Task) : Prop :=
  ∀ bs, t.status = .blocked bs → bs.tasks ≠ [] ∨ bs.externals ≠ []

/-- A fresh Ready task for the C9 counterexample and witness. -/
def c9task : Task := Task.new "t" 0 none none

/-- C9 (falsified as stated): a single public transition
`block_by_task([])` on a fresh Ready task yields status Blocked with
*both* lists empty — the claimed invariant does not hold for empty-id
blocking calls. -/
theorem blockByTask_empty_counterexample :
    (applyTransList c9task [Trans.blockByTask []]).status
      = TaskStatus.blocked ⟨[], []⟩ := by
  rfl

theorem insertID_ne_nil (x : TaskID) (l : List TaskID) : insertID x l ≠ [] := by
  cases l with
  | nil => simp [insertID]
  | cons h t =>
      rw [insertID]
      by_cases hx : x < h <;> simp [hx]

theorem sortIDs_ne_nil (l : List TaskID) (h : l ≠ []) : sortIDs l ≠ [] := by
  cases l with
  | nil => exact absurd rfl h
  | cons x t => exact insertID_ne_nil x (sortIDs t)

theorem dedupIDs_ne_nil (l : List TaskID) (h : l ≠ []) : dedupIDs l ≠ [] := by
  induction l with
  | nil => exact absurd rfl h
  | cons x t ih =>
      cases t with
      | nil => simp [dedupIDs]
      | cons y t' =>
          rw [dedupIDs]
          by_cases hxy : x = y
          · simpa [hxy] using ih (by simp)
          · simp [hxy]

/-- One transition preserves the invariant, provided `block_by_task` is
given a non-empty id list. -/
theorem applyTrans_preserves (t : Task) (tr : Trans)
    (h0 : BlockedNonempty t)
    (htr : ∀ ids, tr = .blockByTask ids → ids ≠ []) :
    BlockedNonempty (applyTrans t tr) := by
  cases tr with
  | blockByTask ids =>
      have hids : ids ≠ [] := htr ids rfl
      intro bs hbs
      cases hst : t.status with
      | blocked bs0 =>
          simp only [applyTrans, Task.blockByTask, hst] at hbs
          injection hbs with hbs
          left
          rw [← hbs]
          exact dedupIDs_ne_nil _ (sortIDs_ne_nil _ (by simp [hids]))
      | ready =>
          simp only [applyTrans, Task.blockByTask, hst] at hbs
          injection hbs with hbs
          left; rw [← hbs]; exact hids
      | completed ts =>
          simp only [applyTrans, Task.blockByTask, hst] at hbs
          injection hbs with hbs
          left; rw [← hbs]; exact hids
      | dropped =>
          simp only [applyTrans, Task.blockByTask, hst] at hbs
          injection hbs with hbs
          left; rw [← hbs]; exact hids
  | blockByExternal reason =>
      intro bs hbs
      cases hst : t.status with
      | blocked bs0 =>
          simp only [applyTrans, Task.blockByExternal, hst] at hbs
          injection hbs with hbs
          right; rw [← hbs]; simp [BlockingStatus.blockByExternal]
      | ready =>
          simp only [applyTrans, Task.blockByExternal, hst] at hbs
          injection hbs with hbs
          right; rw [← hbs]; simp [BlockingStatus.byExternal]
      | completed ts =>
          simp only [applyTrans, Task.blockByExternal, hst] at hbs
          injection hbs with hbs
          right; rw [← hbs]; simp [BlockingStatus.byExternal]
      | dropped =>
          simp only [applyTrans, Task.blockByExternal, hst] at hbs
          injection hbs with hbs
          right; rw [← hbs]; simp [BlockingStatus.byExternal]
  | unblockTask id =>
      intro bs hbs
      cases hst : t.status with
      | blocked bs0 =>
          simp only [applyTrans, Task.unblockTask, hst] at hbs
          by_cases hr : (bs0.unblockTask id).isReady
          · simp [hr] at hbs
          · simp only [hr, Bool.false_eq_true, if_false] at hbs
            injection hbs with hbs
            rw [← hbs]
            rw [BlockingStatus.isReady, Bool.and_eq_true, List.isEmpty_iff,
              List.isEmpty_iff] at hr
            rcases not_and_or.mp hr with h | h
            · left; exact h
            · right; exact h
      | ready => simp only [applyTrans, Task.unblockTask, hst] at hbs
                 exact h0 bs (hst ▸ hbs)
      | completed ts => simp only [applyTrans, Task.unblockTask, hst] at hbs
                        exact h0 bs (hst ▸ hbs)
      | dropped => simp only [applyTrans, Task.unblockTask, hst] at hbs
                   exact h0 bs (hst ▸ hbs)
  | unblockExternal idx =>
      intro bs hbs
      cases hst : t.status with
      | blocked bs0 =>
          simp only [applyTrans, Task.unblockExternal, hst] at hbs
          by_cases hr : (bs0.unblockExternal idx).isReady
          · simp [hr] at hbs
          · simp only [hr, Bool.false_eq_true, if_false] at hbs
            injection hbs with hbs
            rw [← hbs]
            rw [BlockingStatus.isReady, Bool.and_eq_true, List.isEmpty_iff,
              List.isEmpty_iff] at hr
            rcases not_and_or.mp hr with h | h
            · left; exact h
            · right; exact h
      | ready => simp only [applyTrans, Task.unblockExternal, hst] at hbs
                 exact h0 bs (hst ▸ hbs)
      | completed ts => simp only [applyTrans, Task.unblockExternal, hst] at hbs
                        exact h0 bs (hst ▸ hbs)
      | dropped => simp only [applyTrans, Task.unblockExternal, hst] at hbs
                   exact h0 bs (hst ▸ hbs)
  | complete ts =>
      intro bs hbs
      simp [applyTrans, Task.complete] at hbs
  | dropTask =>
      intro bs hbs
      simp [applyTrans, Task.dropIt] at hbs

/-- C9 (amended).  After any sequence of public task transitions in which
every `block_by_task` call carries a non-empty id list — the single change
the counterexample forces — a task that started with the invariant (e.g. a
fresh Ready task) and is Blocked has a non-empty union of its
blocking-task and external-reason lists; equivalently, whenever both lists
are empty the status is Ready, Completed or Dropped, never Blocked. -/
theorem blocked_nonempty_invariant (t0 : Task) (l : List Trans)
    (h0 : BlockedNonempty t0)
    (hl : ∀ ids, Trans.blockByTask ids ∈ l → ids ≠ []) :
    BlockedNonempty (applyTransList t0 l) := by
  induction l generalizing t0 with
  | nil => exact h0
  | cons tr rest ih =>
      rw [applyTransList, List.foldl_cons]
      exact ih (applyTrans t0 tr)
        (applyTrans_preserves t0 tr h0
          (fun ids h => hl ids (h ▸ List.mem_cons_self tr rest)))
        (fun ids h => hl ids (List.mem_cons_of_mem tr h))

/-- Witness for C9 at a concrete input: from a fresh Ready task, blocking
on task 1 and then on an external reason keeps the invariant. -/
theorem blocked_nonempty_invariant_witness :
    BlockedNonempty (applyTransList c9task
      [Trans.blockByTask [1],
       Trans.blockByExternal ⟨none, .unknown, 0⟩]) := by
  apply blocked_nonempty_invariant
  · intro bs hbs
    simp [c9task, Task.new] at hbs
  · intro ids h
    simp only [List.mem_cons, List.not_mem_nil, or_false] at h
    rcases h with h | h
    · injection h with h
      subst h; simp
    · exact Trans.noConfusion h

/-! ## Exact fractions: the model of the scheduler's `f64` arithmetic

An unreduced fraction `num / den` with `den ≥ 0` maintained by the
operations; `den = 0` models an infinite (or NaN) `f64`, which is exactly
what the scheduler's `is_finite` checks guard against.  On the concrete
inputs used in this development every `f64` operation the scheduler
performs is exact, so this exact model coincides with the floating-point
computation there. -/

structure Frac where
  num : Int
  den : Int
deriving DecidableEq

/-- Embed an integer (`as f64` on an in-range integer is exact). -/
def Frac.ofInt (n : Int) : Frac := ⟨n, 1⟩

/-- Sign-normalising constructor: keeps the denominator nonnegative. -/
def Frac.make (n d : Int) : Frac := if d < 0 then ⟨-n, -d⟩ else ⟨n, d⟩

/-- `f64::is_finite`: false for the `den = 0` (infinite/NaN) values. -/
def Frac.isFinite (x : Frac) : Bool := x.den ≠ 0

def Frac.mul (x y : Frac) : Frac := ⟨x.num * y.num, x.den * y.den⟩

def Frac.div (x y : Frac) : Frac := Frac.make (x.num * y.den) (x.den * y.num)

def Frac.add (x y : Frac) : Frac :=
  ⟨x.num * y.den + y.num * x.den, x.den * y.den⟩

def Frac.sub (x y : Frac) : Frac :=
  ⟨x.num * y.den - y.num * x.den, x.den * y.den⟩

/-- `<` on finite values (cross-multiplication; denominators are kept
nonnegative by construction). -/
def Frac.blt (x y : Frac) : Bool := decide (x.num * y.den < y.num * x.den)

/-- `f64` equality on finite values. -/
def Frac.beq (x y : Frac) : Bool := decide (x.num * y.den = y.num * x.den)

/-- `f64::max`. -/
def Frac.fmax (x y : Frac) : Frac := if Frac.blt x y then y else x

/-- `f64::clamp`. -/
def Frac.clamp (x lo hi : Frac) : Frac :=
  if Frac.blt x lo then lo else if Frac.blt hi x then hi else x

/-- Ceiling of a fraction (`f64::ceil` on an exact value); junk 0 on a
zero denominator. -/
def Frac.fceil (x : Frac) : Int :=
  if x.den = 0 then 0 else -((-x.num) / x.den)

/-- Lexicographic strict `>` on the priority pair `(urgency, weighted)`
(Rust's tuple `PartialOrd`). -/
def scoreGt (a b : Frac × Frac) : Bool :=
  Frac.blt b.1 a.1 || (Frac.beq a.1 b.1 && Frac.blt b.2 a.2)

/-! ## SlotMap (`src/core/slot.rs`) -/

/-- `SlotMap`: date → (task → accumulated duration). -/
structure SlotMap where
  slots : List (NDate × List (TaskID × TDuration))
deriving DecidableEq

/-- `SlotMap::new`. -/
def SlotMap.new : SlotMap := ⟨[]⟩

/-- `SlotMap::add`: accumulate into the per-day per-task entry. -/
def SlotMap.add (sm : SlotMap) (date : NDate) (taskId : TaskID)
    (duration : TDuration) : SlotMap :=
  let day := (alookup date sm.slots).getD []
  let day' := ainsert taskId (((alookup taskId day).getD 0) + duration) day
  ⟨ainsert date day' sm.slots⟩

/-- The total duration a `SlotMap` assigns to a date. -/
def SlotMap.daySum (sm : SlotMap) (date : NDate) : TDuration :=
  ((alookup date sm.slots).getD []).foldl (fun a p => a + p.2) 0

/-- The total minutes of Available windows a forward enumeration pass
emits on a given date. -/
def availableMinutesOn (cal : Calendar) (fromDT : NDateTime) (date : NDate) :
    TDuration :=
  ((cal.timeWindows fromDT).filter
      (fun w => w.available && decide (w.date = date))).foldl
    (fun a w => a + (w.stop - w.start)) 0

/-! ## Scheduler derived maps (`src/core/schedule.rs`) -/

/-- A task map (`BTreeMap<TaskID, Task>`; ascending key order is the
container invariant). -/
abbrev TaskMap := List (TaskID × Task)

/-- `tasks.keys()`. -/
def taskKeys (tasks : TaskMap) : List TaskID := tasks.map (·.1)

/-- `build_rev_graph`: `rev_graph[dep] = [dependent tasks]`, built by
scanning every Blocked task's `tasks` list. -/
def buildRevGraph (tasks : TaskMap) : List (TaskID × List TaskID) :=
  tasks.foldl
    (fun rev idTask =>
      match idTask.2.status with
      | .blocked bs =>
          bs.tasks.foldl
            (fun rev dep => ainsert dep ((alookup dep rev).getD [] ++ [idTask.1]) rev)
            rev
      | _ => rev)
    []

/-- Insert into an insertion-ordered duplicate-free list (models
`HashSet::insert`; only membership and cardinality are observed). -/
def insertSet (x : TaskID) (s : List TaskID) : List TaskID :=
  if x ∈ s then s else s ++ [x]

/-- `HashSet::extend`. -/
def unionSet (s t : List TaskID) : List TaskID :=
  t.foldl (fun acc y => insertSet y acc) s

/-- The DFS of `compute_dependents_map`: memoised, with an *empty
placeholder inserted for the current node before recursing* (the source's
cycle guard), so cyclic graphs terminate.  Fuel models the recursion
stack; with fuel exceeding the number of distinct ids it never runs out. -/
def dependentsDfs (rev : List (TaskID × List TaskID)) :
    Nat → TaskID → List (TaskID × List TaskID) →
    Option (List TaskID × List (TaskID × List TaskID))
  | 0, _, _ => none
  | fuel + 1, id, memo =>
      match alookup id memo with
      | some cached => some (cached, memo)
      | none =>
          let memo1 := ainsert id [] memo
          let folded :=
            ((alookup id rev).getD []).foldl
              (fun acc ch =>
                match acc with
                | none => none
                | some (all, m) =>
                    match dependentsDfs rev fuel ch m with
                    | none => none
                    | some (chSet, m') =>
                        some (unionSet (insertSet ch all) chSet, m'))
              (some ([], memo1))
          match folded with
          | none => none
          | some (all, memo2) => some (all, ainsert id all memo2)

/-- The key fold of `compute_dependents_map`, threading the shared memo. -/
def computeDependentsMapGo (rev : List (TaskID × List TaskID)) (fuel : Nat) :
    List TaskID → List (TaskID × List TaskID) → Option (List (TaskID × Nat))
  | [], _ => some []
  | id :: rest, memo =>
      match dependentsDfs rev fuel id memo with
      | none => none
      | some (deps, memo') =>
          match computeDependentsMapGo rev fuel rest memo' with
          | none => none
          | some tail => some ((id, deps.length) :: tail)

/-- `compute_dependents_map`: for each task the size of its transitive
downstream set via `rev_graph`. -/
def computeDependentsMap (tasks : TaskMap)
    (rev : List (TaskID × List TaskID)) (fuel : Nat) :
    Option (List (TaskID × Nat)) :=
  computeDependentsMapGo rev fuel (taskKeys tasks) []

/-! ## Calendar-aware time projection (`project_finish`,
`project_start_before`) -/

/-- The inner `while` of `project_finish`: consume `work_tick`-sized slots
(plus buffer) from one window while time and work remain. -/
def pfInner (workTick buffer : TDuration) :
    Nat → NDateTime → NDateTime → TDuration → Option (NDateTime × TDuration)
  | 0, _, _, _ => none
  | fuel + 1, cursor, stop, remaining =>
      if cursor < stop ∧ 0 < remaining then
        let slot := min (stop - cursor) workTick
        let work := min slot remaining
        pfInner workTick buffer fuel (cursor + work + buffer) stop
          (remaining - work)
      else some (cursor, remaining)

/-- The window loop of `project_finish` over the Available windows. -/
def projectFinishGo (workTick buffer : TDuration) (fuel : Nat)
    (start : NDateTime) :
    List TimeWindow → TDuration → Option NDateTime
  | [], remaining => some (start + remaining)
  | w :: rest, remaining =>
      if w.available then
        match pfInner workTick buffer fuel (max w.startDatetime start)
            w.endDatetime remaining with
        | none => none
        | some (cursor, remaining') =>
            if remaining' ≤ 0 then some (cursor - buffer)
            else projectFinishGo workTick buffer fuel start rest remaining'
      else projectFinishGo workTick buffer fuel start rest remaining

/-- `project_finish(start, remaining, calendar, work_tick, buffer)`. -/
def projectFinish (cal : Calendar) (workTick buffer : TDuration) (fuel : Nat)
    (start : NDateTime) (remaining : TDuration) : Option NDateTime :=
  projectFinishGo workTick buffer fuel start (cal.timeWindows start) remaining

/-- The inner `while` of `project_start_before`: walk left from the end of
a window. -/
def psbInner (workTick buffer : TDuration) :
    Nat → NDateTime → NDateTime → TDuration → Option (NDateTime × TDuration)
  | 0, _, _, _ => none
  | fuel + 1, t, winStart, remaining =>
      if winStart < t ∧ 0 < remaining then
        let slot := min (t - winStart) workTick
        let work := min slot remaining
        psbInner workTick buffer fuel (t - (work + buffer)) winStart
          (remaining - work)
      else some (t, remaining)

/-- The window loop of `project_start_before` over the reverse Available
windows (the running `cursor` caps each window's end). -/
def projectStartBeforeGo (workTick buffer : TDuration) (fuel : Nat)
    (finish : NDateTime) :
    List TimeWindow → NDateTime → TDuration → Option NDateTime
  | [], _, remaining => some (finish - remaining)
  | w :: rest, cursor, remaining =>
      if w.available then
        let winStart := w.startDatetime
        match psbInner workTick buffer fuel (min w.endDatetime cursor)
            winStart remaining with
        | none => none
        | some (t, remaining') =>
            if remaining' ≤ 0 then some (t + buffer)
            else projectStartBeforeGo workTick buffer fuel finish rest
              winStart remaining'
      else projectStartBeforeGo workTick buffer fuel finish rest cursor
        remaining

/-- `project_start_before(finish, remaining, calendar, work_tick,
buffer)`. -/
def projectStartBefore (cal : Calendar) (workTick buffer : TDuration)
    (fuel : Nat) (finish : NDateTime) (remaining : TDuration) :
    Option NDateTime :=
  projectStartBeforeGo workTick buffer fuel finish
    (cal.timeWindowsRev finish) finish remaining

/-! ## Earliest-start map (`compute_earliest_start_map`) -/

/-- The `Context` of `compute_earliest_start_map`. -/
structure EarliestCtx where
  tasks : TaskMap
  cal : Calendar
  now : NDateTime
  defaultTime : NTime
  workTick : TDuration
  buffer : TDuration

/-- One step of `for dep_task_id in &bs.tasks { ... }` in the
earliest-start DFS, abstracted over the recursive call `dfs` (the loop is
a `foldl` of this step, so proofs can induct over the blocker list):
Completed blockers contribute their completion time, any other blocker
contributes `project_finish` of its own recursively computed earliest
start plus remaining time. -/
def earliestDepStep (ctx : EarliestCtx) (pfFuel : Nat)
    (dfs : TaskID → List (TaskID × NDateTime) →
      Option (NDateTime × List (TaskID × NDateTime)))
    (acc : Option (NDateTime × List (TaskID × NDateTime)))
    (depTaskId : TaskID) :
    Option (NDateTime × List (TaskID × NDateTime)) :=
  match acc with
  | none => none
  | some (e, m) =>
      match alookup depTaskId ctx.tasks with
      | none => none
      | some depTask =>
          match depTask.status with
          | .completed dt => some (max e dt, m)
          | _ =>
              match dfs depTaskId m with
              | none => none
              | some (depStart, m') =>
                  match projectFinish ctx.cal ctx.workTick ctx.buffer
                      pfFuel depStart depTask.remaining with
                  | none => none
                  | some fin => some (max e fin, m')

/-- The external-blocker maximum of the earliest-start DFS
(`resolve_with_calendar` failures are the `expect` panic; unresolved
deadlines are skipped). -/
def earliestExtFold (ctx : EarliestCtx)
    (externals : List ExternalBlockingReason) : Option NDateTime :=
  externals.foldl
    (fun acc ext =>
      match acc with
      | none => none
      | some e =>
          match ext.mayUnblockAt.resolveWithCalendar ctx.cal
              ctx.defaultTime with
          | .error _ => none
          | .ok none => some e
          | .ok (some unblockTime) => some (max e unblockTime))
    (some ctx.now)

/-- The DFS of `compute_earliest_start_map`.  Note the source checks the
memo on entry but inserts the result only *after* recursing into the
blockers — there is no sentinel insertion before the recursion, unlike
`compute_dependents_map`.  Fuel models the recursion stack; `none` models
a run that does not return (the `expect` on deadline resolution, an
unknown id, or unbounded recursion). -/
def earliestDfs (ctx : EarliestCtx) (pfFuel : Nat) :
    Nat → TaskID → List (TaskID × NDateTime) →
    Option (NDateTime × List (TaskID × NDateTime))
  | 0, _, _ => none
  | fuel + 1, taskId, memo =>
      match alookup taskId memo with
      | some t => some (t, memo)
      | none =>
          match alookup taskId ctx.tasks with
          | none => none
          | some task =>
              match task.status with
              | .blocked bs =>
                  match earliestExtFold ctx bs.externals with
                  | none => none
                  | some e1 =>
                      match bs.tasks.foldl
                          (earliestDepStep ctx pfFuel
                            (earliestDfs ctx pfFuel fuel))
                          (some (e1, memo)) with
                      | none => none
                      | some (e2, memo2) =>
                          some (e2, ainsert taskId e2 memo2)
              | _ => some (ctx.now, ainsert taskId ctx.now memo)

/-- The key fold of `compute_earliest_start_map`, threading the memo. -/
def computeEarliestStartMapGo (ctx : EarliestCtx) (pfFuel dfsFuel : Nat) :
    List TaskID → List (TaskID × NDateTime) →
    Option (List (TaskID × NDateTime))
  | [], memo => some memo
  | id :: rest, memo =>
      match earliestDfs ctx pfFuel dfsFuel id memo with
      | none => none
      | some (_, memo') =>
          computeEarliestStartMapGo ctx pfFuel dfsFuel rest memo'

/-- `compute_earliest_start_map(tasks, calendar, now, default_time,
work_tick, buffer)`. -/
def computeEarliestStartMap (tasks : TaskMap) (cal : Calendar)
    (now : NDateTime) (defaultTime : NTime) (workTick buffer : TDuration)
    (pfFuel dfsFuel : Nat) : Option (List (TaskID × NDateTime)) :=
  computeEarliestStartMapGo ⟨tasks, cal, now, defaultTime, workTick, buffer⟩
    pfFuel dfsFuel (taskKeys tasks) []

/-! ## Latest-start map (`compute_latest_start_map`) -/

/-- `chrono::NaiveDateTime::MAX` (its exact value is irrelevant: it only
bounds the reverse enumeration from above, and every calendar in scope
lies far below it). -/
def naiveDateTimeMax : NDateTime := andTime 95617049 0

/-- Smallest element of a list of datetimes (`Iterator::min`). -/
def minList? : List NDateTime → Option NDateTime
  | [] => none
  | x :: rest =>
      match minList? rest with
      | none => some x
      | some m => some (min x m)

/-- The propagation DFS of `compute_latest_start_map` (step 2): children
first, then `project_start_before` from the minimum child latest; tasks
with neither deadline nor dependents fall back to the last Available
window of the calendar — the `.unwrap()` on that lookup (`none` here)
panics when the calendar has no Available window at all. -/
def latestDfs (tasks : TaskMap) (rev : List (TaskID × List TaskID))
    (cal : Calendar) (workTick buffer : TDuration) (pfFuel : Nat) :
    Nat → TaskID → List (TaskID × NDateTime) →
    Option (List (TaskID × NDateTime))
  | 0, _, _ => none
  | fuel + 1, id, latest =>
      if (alookup id latest).isSome then some latest
      else
        match alookup id rev with
        | some children =>
            let afterChildren :=
              children.foldl
                (fun acc ch =>
                  match acc with
                  | none => none
                  | some l =>
                      latestDfs tasks rev cal workTick buffer pfFuel fuel ch l)
                (some latest)
            match afterChildren with
            | none => none
            | some latest1 =>
                match minList? (children.filterMap
                    (fun ch => alookup ch latest1)) with
                | none => none
                | some minChild =>
                    match alookup id tasks with
                    | none => none
                    | some task =>
                        match projectStartBefore cal workTick buffer pfFuel
                            minChild task.remaining with
                        | none => none
                        | some start => some (ainsert id start latest1)
        | none =>
            match (cal.timeWindowsRev naiveDateTimeMax).find?
                (fun w => w.available) with
            | none => none
            | some lastWindow =>
                match alookup id tasks with
                | none => none
                | some task =>
                    some (ainsert id
                      (andTime lastWindow.date
                        (lastWindow.stop - task.remaining)) latest)

/-- Step 1 of `compute_latest_start_map`: seed tasks with a resolvable
deadline via `project_start_before` (the `expect` on resolution failure is
`none`). -/
def latestSeedGo (cal : Calendar) (defaultTime : NTime)
    (workTick buffer : TDuration) (pfFuel : Nat) :
    List (TaskID × Task) → List (TaskID × NDateTime) →
    Option (List (TaskID × NDateTime))
  | [], latest => some latest
  | (id, task) :: rest, latest =>
      match task.deadline.resolveWithCalendar cal defaultTime with
      | .error _ => none
      | .ok none => latestSeedGo cal defaultTime workTick buffer pfFuel rest latest
      | .ok (some dlDt) =>
          match projectStartBefore cal workTick buffer pfFuel dlDt
              task.remaining with
          | none => none
          | some start =>
              latestSeedGo cal defaultTime workTick buffer pfFuel rest
                (ainsert id start latest)

/-- The key fold of step 2. -/
def latestDfsGo (tasks : TaskMap) (rev : List (TaskID × List TaskID))
    (cal : Calendar) (workTick buffer : TDuration) (pfFuel dfsFuel : Nat) :
    List TaskID → List (TaskID × NDateTime) →
    Option (List (TaskID × NDateTime))
  | [], latest => some latest
  | id :: rest, latest =>
      match latestDfs tasks rev cal workTick buffer pfFuel dfsFuel id latest with
      | none => none
      | some latest' =>
          latestDfsGo tasks rev cal workTick buffer pfFuel dfsFuel rest latest'

/-- `compute_latest_start_map(tasks, rev_graph, calendar, default_time,
work_tick, buffer)`. -/
def computeLatestStartMap (tasks : TaskMap)
    (rev : List (TaskID × List TaskID)) (cal : Calendar)
    (defaultTime : NTime) (workTick buffer : TDuration)
    (pfFuel dfsFuel : Nat) : Option (List (TaskID × NDateTime)) :=
  match latestSeedGo cal defaultTime workTick buffer pfFuel tasks [] with
  | none => none
  | some seeded =>
      latestDfsGo tasks rev cal workTick buffer pfFuel dfsFuel
        (taskKeys tasks) seeded

/-! ## Schedule context and the greedy allocator (`Scheduler::schedule`) -/

/-- `ScheduleContext`: the per-pass bundle of derived maps and mutable
allocation state. -/
structure ScheduleContext where
  dailyMinutes : Frac
  now : NDateTime
  tasks : TaskMap
  cal : Calendar
  earliest : List (TaskID × NDateTime)
  latest : List (TaskID × NDateTime)
  need : List (TaskID × Frac)
  revGraph : List (TaskID × List TaskID)
  depMap : List (TaskID × Nat)
  maxDep : Frac
  riskMap : List (TaskID × (Frac × Frac))
  workingTime : NTime × NTime
  slots : SlotMap
  remainingMinutes : List (TaskID × Int)

/-- `ScheduleContext::compute_need_days_map`: remaining minutes divided by
the daily working minutes (`f64`), 0 for non-positive remainders. -/
def computeNeedDaysMap (tasks : TaskMap) (dailyMinutes : Frac) :
    List (TaskID × Frac) :=
  tasks.map fun idTask =>
    let remMin := Frac.ofInt (numMinutes idTask.2.remaining)
    (idTask.1,
      if Frac.blt (Frac.ofInt 0) remMin then Frac.div remMin dailyMinutes
      else Frac.ofInt 0)

/-- `ScheduleContext::build`.  Mirrors the source: normalise `now` to the
first official workday at or after `now.date()` (falling back to
`now.date()`) at the working start time, then compute every derived map.
A `none` from the earliest/latest computations (a panic or unbounded
recursion in the source) aborts the build. -/
def ScheduleContext.build (now0 : NDateTime) (tasks : TaskMap)
    (cal : Calendar) (workingTime : NTime × NTime)
    (workTick bufferTime : TDuration) (pfFuel dfsFuel : Nat) :
    Option ScheduleContext :=
  let dailyMinutes := Frac.ofInt (numMinutes (workingTime.2 - workingTime.1))
  let now := andTime
    (((cal.officialWorkdays (dateOf now0)).head?).getD (dateOf now0))
    workingTime.1
  let need := computeNeedDaysMap tasks dailyMinutes
  let revGraph := buildRevGraph tasks
  match computeEarliestStartMap tasks cal now workingTime.1 workTick
      bufferTime pfFuel dfsFuel with
  | none => none
  | some earliest =>
      match computeLatestStartMap tasks revGraph cal workingTime.1 workTick
          bufferTime pfFuel dfsFuel with
      | none => none
      | some latest =>
          match computeDependentsMap tasks revGraph dfsFuel with
          | none => none
          | some depMap =>
              let maxDep := Frac.ofInt
                (max (depMap.foldl (fun a p => max a (p.2 : Int)) 0) 1)
              let riskMap : List (TaskID × (Frac × Frac)) := tasks.map
                fun idTask =>
                  (idTask.1,
                    match idTask.2.estimate with
                    | some e =>
                        (Frac.ofInt (numMinutes e.mean),
                         Frac.ofInt (numMinutes e.stddev))
                    | none => (Frac.ofInt 0, Frac.ofInt 0))
              let remainingMinutes := need.map fun idDays =>
                (idDays.1, Frac.fceil (Frac.mul idDays.2 dailyMinutes))
              some
                { dailyMinutes := dailyMinutes, now := now, tasks := tasks,
                  cal := cal, earliest := earliest, latest := latest,
                  need := need, revGraph := revGraph, depMap := depMap,
                  maxDep := maxDep, riskMap := riskMap,
                  workingTime := workingTime, slots := SlotMap.new,
                  remainingMinutes := remainingMinutes }

/-- `ScheduleContext::calc_slack`.  (Indexing panics on ids the build did
not populate are not modelled: `build` fills every map for every task
key, so the defaults are never consulted.) -/
def ScheduleContext.calcSlack (ctx : ScheduleContext) (id : TaskID)
    (cursor : NDateTime) : Frac :=
  let slack := Frac.div
    (Frac.ofInt (numMinutes ((alookup id ctx.latest).getD 0 - cursor)))
    ctx.dailyMinutes
  if slack.isFinite then slack else Frac.ofInt 0

/-- `ScheduleContext::calc_max_slack_on`: maximum slack over the
not-yet-exhausted tasks whose earliest start has arrived, floored at 1.0. -/
def ScheduleContext.calcMaxSlackOn (ctx : ScheduleContext)
    (cursor : NDateTime) : Frac :=
  (((taskKeys ctx.tasks).filter fun id =>
      decide (0 < (alookup id ctx.remainingMinutes).getD 0) &&
        decide ((alookup id ctx.earliest).getD 0 ≤ cursor)).map
    fun id => ctx.calcSlack id cursor).foldl Frac.fmax (Frac.ofInt 1)

/-- `ScheduleContext::calc_priority_score`: the `(urgency, weighted)`
pair. -/
def ScheduleContext.calcPriorityScore (ctx : ScheduleContext) (id : TaskID)
    (cursor : NDateTime) (maxSlack : Frac) : Frac × Frac :=
  let dScore := Frac.div (Frac.ofInt ((alookup id ctx.depMap).getD 0 : Int))
    ctx.maxDep
  let risk := (alookup id ctx.riskMap).getD (Frac.ofInt 0, Frac.ofInt 0)
  let rScore := if Frac.blt (Frac.ofInt 0) risk.1
    then Frac.div risk.2 risk.1 else Frac.ofInt 0
  let slack := Frac.div
    (Frac.ofInt (numMinutes ((alookup id ctx.latest).getD 0 - cursor)))
    ctx.dailyMinutes
  let urgency := if slack.isFinite then
      Frac.clamp (Frac.sub (Frac.ofInt 1) (Frac.div slack maxSlack))
        (Frac.make 1 1000) (Frac.ofInt 1)
    else Frac.ofInt 0
  (urgency,
   Frac.add (Frac.mul (Frac.make 7 10) rScore)
     (Frac.mul (Frac.make 3 10) dScore))

/-- `ScheduleContext::allocate`: grant
`min(remaining_minutes, work_tick, capacity)`, record it under the
cursor's date, and clamp the task's remaining minutes at zero. -/
def ScheduleContext.allocate (ctx : ScheduleContext) (taskId : TaskID)
    (workTick : TDuration) (cursor : NDateTime) (capacity : TDuration) :
    TDuration × ScheduleContext :=
  let alloc := min (mins ((alookup taskId ctx.remainingMinutes).getD 0))
    (min workTick capacity)
  let slots' := ctx.slots.add (dateOf cursor) taskId alloc
  let rm' :=
    match alookup taskId ctx.remainingMinutes with
    | some m => ainsert taskId (max (m - numMinutes alloc) 0)
        ctx.remainingMinutes
    | none => ctx.remainingMinutes
  (alloc, { ctx with slots := slots', remainingMinutes := rm' })

/-- `ScheduleContext::find_first_allocatable_time`: earliest future
earliest-start strictly inside `(from, to)` among unfinished tasks. -/
def ScheduleContext.findFirstAllocatableTime (ctx : ScheduleContext)
    (fromDT toDT : NDateTime) : Option NDateTime :=
  minList?
    ((((taskKeys ctx.tasks).filter fun id =>
        decide (0 < (alookup id ctx.remainingMinutes).getD 0)).map
      fun id => (alookup id ctx.earliest).getD 0).filter
        fun t => decide (fromDT < t) && decide (t < toDT))

/-- `Scheduler`: work tick, buffer, default working window. -/
structure Scheduler where
  workTick : TDuration
  bufferTime : TDuration
  workingTime : NTime × NTime

/-- The `while capacity > zero` loop of `Scheduler::schedule` for one
Available window: recompute priorities, allocate to the best candidate,
or jump the cursor to the next earliest start inside the window.  The
jump branch reproduces the source order exactly: the new capacity is
computed from the *old* cursor (`capacity = window.end_datetime() -
cursor`) and only then is the cursor advanced.  Fuel exhaustion is
`none`. -/
def windowLoop (s : Scheduler) (tasks : TaskMap) (w : TimeWindow) :
    Nat → NDateTime → TDuration → ScheduleContext → Option ScheduleContext
  | 0, _, _, _ => none
  | fuel + 1, cursor, capacity, ctx =>
      if 0 < capacity then
        let maxSlack := ctx.calcMaxSlackOn cursor
        let best := (taskKeys tasks).foldl
          (fun best id =>
            let alreadyDone := (alookup id ctx.remainingMinutes).getD 0 ≤ 0
            let cannotStartYet := cursor < (alookup id ctx.earliest).getD 0
            if alreadyDone ∨ cannotStartYet then best
            else
              let score := ctx.calcPriorityScore id cursor maxSlack
              match best with
              | none => some (score, id)
              | some (bs, bid) =>
                  if scoreGt score bs then some (score, id)
                  else some (bs, bid))
          none
        match best with
        | some (_, chosen) =>
            let allocCtx := ctx.allocate chosen s.workTick cursor capacity
            let consumed := allocCtx.1 + s.bufferTime
            windowLoop s tasks w fuel (cursor + consumed)
              (capacity - consumed) allocCtx.2
        | none =>
            match ctx.findFirstAllocatableTime cursor w.endDatetime with
            | some earliestAllocatableTime =>
                windowLoop s tasks w fuel earliestAllocatableTime
                  (w.endDatetime - cursor) ctx
            | none => some ctx
      else some ctx

/-- `Scheduler::schedule(now, tasks, calendar)`: build the context, then
fill every Available window of `time_windows(now)` (non-Available windows
are only printed and skipped). -/
def Scheduler.schedule (s : Scheduler) (now : NDateTime) (tasks : TaskMap)
    (cal : Calendar) (pfFuel dfsFuel loopFuel : Nat) : Option SlotMap :=
  match ScheduleContext.build now tasks cal s.workingTime s.workTick
      s.bufferTime pfFuel dfsFuel with
  | none => none
  | some ctx0 =>
      let afterWindows := (cal.timeWindows now).foldl
        (fun acc w =>
          match acc with
          | none => none
          | some ctx =>
              if w.available then
                windowLoop s tasks w loopFuel w.startDatetime
                  (w.stop - w.start) ctx
              else some ctx)
        (some ctx0)
      match afterWindows with
      | none => none
      | some ctx => some ctx.slots

/-! ## C1: the scheduling pass on degraded calendars

The claim says a pass always returns normally, and returns an empty
`SlotMap` when the calendar has no available windows.  The code disagrees:
when the calendar has no Available window at all, `compute_latest_start_map`'s
DFS reaches `time_windows_rev(MAX).find(available).unwrap()` for any task
with neither a resolvable deadline nor dependents, and the `unwrap`
panics.  Only the empty task map avoids the panic. -/

/-- A calendar with no official days — hence no available windows. -/
def c1cal : Calendar :=
  { officialDays := [], workingTime := (mins 540, mins 1020),
    calendarDays := [] }

/-- A single well-formed Ready task with no deadline, no estimate, no
blockers. -/
def c1task : Task := Task.new "t" 0 none none

/-- C1 (falsified): on the windowless calendar `c1cal`, a pass over the
single deadline-free task panics (`none`, the model of the `unwrap` on a
missing Available window in `compute_latest_start_map`) for every
scheduler configuration and every fuel, instead of returning an empty
`SlotMap`; whereas a pass over the *empty* task map does return the empty
`SlotMap`. -/
theorem schedule_no_windows_panics (s : Scheduler)
    (pfFuel dfsFuel loopFuel : Nat) :
    s.schedule (andTime 20000 (mins 540)) [(1, c1task)] c1cal pfFuel
        (dfsFuel + 1) loopFuel = none ∧
      s.schedule (andTime 20000 (mins 540)) [] c1cal pfFuel (dfsFuel + 1)
        loopFuel = some SlotMap.new := by
  constructor
  · simp [Scheduler.schedule, ScheduleContext.build, computeEarliestStartMap,
      computeEarliestStartMapGo, earliestDfs, alookup, c1task, Task.new,
      c1cal, computeLatestStartMap, latestSeedGo, latestDfsGo, latestDfs,
      Deadline.resolveWithCalendar, buildRevGraph, taskKeys,
      Calendar.timeWindowsRev, Calendar.officialWorkdays]
  · simp [Scheduler.schedule, ScheduleContext.build, computeEarliestStartMap,
      computeEarliestStartMapGo, c1cal, computeLatestStartMap, latestSeedGo,
      latestDfsGo, buildRevGraph, taskKeys, computeDependentsMap,
      computeDependentsMapGo, Calendar.timeWindows,
      Calendar.officialWorkdays, SlotMap.new]

/-! ## C2: cycle behaviour of the two DFS computations

The claim says both `compute_dependents_map` and
`compute_earliest_start_map` terminate on cyclic blocking graphs because
each inserts a memo sentinel before recursing.  `compute_dependents_map`
does (`memo.insert(id, HashSet::new())` precedes the recursion), but
`compute_earliest_start_map::dfs` only inserts its memo entry *after* the
recursive calls — on a cycle it recurses forever (a stack overflow in the
source, `none` at every fuel here). -/

/-- A single task blocked on itself: the smallest cyclic blocking graph. -/
def c2task : Task :=
  { title := "A", createdAt := 0, deadline := .unknown,
    status := .blocked ⟨[1], []⟩, note := none, estimate := none,
    progress := none, actualTotal := 0 }

/-- The task map of the C2 input. -/
def c2tasks : TaskMap := [(1, c2task)]

/-- The `compute_earliest_start_map` context for the C2 input. -/
def c2ctx : EarliestCtx :=
  { tasks := c2tasks, cal := c1cal, now := andTime 20000 (mins 540),
    defaultTime := mins 540, workTick := mins 25, buffer := mins 5 }

/-- C2 (falsified for `compute_earliest_start_map`): on the self-blocked
task, the earliest-start DFS never returns, at any recursion depth —
there is no sentinel insertion before the recursion, so the cycle
recurses until the stack overflows; `compute_dependents_map` on the very
same input terminates (its sentinel works) with the task counted as its
own single transitive dependent. -/
theorem earliestDfs_cycle_diverges :
    (∀ pfFuel dfsFuel : Nat,
      computeEarliestStartMap c2tasks c1cal (andTime 20000 (mins 540))
        (mins 540) (mins 25) (mins 5) pfFuel dfsFuel = none) ∧
      computeDependentsMap c2tasks (buildRevGraph c2tasks) 3
        = some [(1, 1)] := by
  constructor
  · have hdfs : ∀ dfsFuel pfFuel : Nat,
        earliestDfs c2ctx pfFuel dfsFuel 1 [] = none := by
      intro dfsFuel
      induction dfsFuel with
      | zero => intro pfFuel; rfl
      | succ n ih =>
          intro pfFuel
          have htask : alookup 1 c2ctx.tasks = some c2task := rfl
          have hstat : c2task.status
              = TaskStatus.blocked ⟨[1], []⟩ := rfl
          simp [earliestDfs, earliestDepStep, earliestExtFold, alookup,
            htask, hstat, ih pfFuel]
    intro pfFuel dfsFuel
    show computeEarliestStartMapGo c2ctx pfFuel dfsFuel
      (taskKeys c2tasks) [] = none
    rw [show taskKeys c2tasks = [1] from rfl]
    simp [computeEarliestStartMapGo, hdfs dfsFuel pfFuel]
  · decide

/-! ## C3: per-day allocation versus available minutes

The claim says the sum of a day's allocations never exceeds that day's
Available minutes, and in particular window-local allocations survive the
cursor jump.  In the source's jump branch the new capacity is computed
from the *old* cursor before the cursor moves
(`capacity = window.end_datetime() - cursor; cursor = t;`), so after a
jump the loop believes it has more room than remains before the window
end; allocation then runs past the end of the window — even past
midnight, onto a date with no Available windows at all. -/

/-- The C3 calendar: one official day (20000) with working time
23:23–23:55 (32 minutes, chosen so that every `f64` the scheduler
computes is exact). -/
def c3cal : Calendar :=
  { officialDays := [20000], workingTime := (mins 1403, mins 1435),
    calendarDays := [(20000, CalendarDay.emptyDay)] }

/-- The C3 task: 32 minutes of work, blocked by an external reason that
lifts at 23:50, deadline 23:55 the same day. -/
def c3task : Task :=
  { title := "A", createdAt := 0,
    deadline := .exact (andTime 20000 (mins 1435)),
    status := .blocked ⟨[], [⟨none, .exact (andTime 20000 (mins 1430)), 0⟩]⟩,
    note := none, estimate := some (Estimate.new (mins 32)),
    progress := none, actualTotal := 0 }

/-- The C3 scheduler: 25-minute tick, 5-minute buffer, the same working
window. -/
def c3sched : Scheduler :=
  { workTick := mins 25, bufferTime := mins 5,
    workingTime := (mins 1403, mins 1435) }

/-- The C3 pass starts at the working start of the day. -/
def c3now : NDateTime := andTime 20000 (mins 1403)

/-- The slot map the C3 pass produces: 25 minutes on day 20000 and —
past midnight — 2 minutes on day 20001. -/
def c3slots : SlotMap :=
  ⟨[(20000, [(1, mins 25)]), (20001, [(1, mins 2)])]⟩

/-- C3 (falsified): the pass allocates 2 minutes to day 20001, a date on
which the calendar has no Available minutes at all.  The jump branch
moves the cursor from 23:23 to 23:50 while keeping the full 32-minute
capacity, so the allocator works 25 minutes (23:50–00:15) and then 2 more
minutes after midnight. -/
theorem schedule_day_exceeds_available :
    c3sched.schedule c3now [(1, c3task)] c3cal 16 8 16 = some c3slots ∧
      c3slots.daySum 20001 = mins 2 ∧
      availableMinutesOn c3cal c3now 20001 = 0 := by
  refine ⟨by decide, by decide, by decide⟩

/-! ## C8: the earliest start of unblocked tasks

The claim says the earliest-start entry of every not-Blocked task equals
`now`, *the timestamp passed to the pass*.  But `ScheduleContext::build`
first normalises `now` to the first official workday at or after
`now.date()` (falling back to `now.date()`) at the working start time,
and the DFS defaults to that normalised instant — so whenever the passed
timestamp is not already a working-day start, the entry differs from it. -/

/-- A key that `alookup` finds is among the keys. -/
theorem alookup_mem_keys {α β : Type} [DecidableEq α] (k : α) (v : β)
    (l : List (α × β)) (h : alookup k l = some v) : k ∈ l.map Prod.fst := by
  induction l with
  | nil => exact absurd h (by simp [alookup])
  | cons hd tl ih =>
      obtain ⟨k', v'⟩ := hd
      rw [alookup] at h
      by_cases hk : k' = k
      · simp [hk]
      · simp only [if_neg hk] at h
        simp [ih h]

/-- The C8 memo invariant: every memo entry of a task that is not Blocked
equals the context's (normalised) `now`. -/
def NonblockedNow (ctx : EarliestCtx)
    (memo : List (TaskID × NDateTime)) : Prop :=
  ∀ id task, alookup id ctx.tasks = some task →
    (∀ bs, task.status ≠ TaskStatus.blocked bs) →
    ∀ v, alookup id memo = some v → v = ctx.now

/-- One blocker step preserves the memo invariant and memo membership,
assuming the recursive call does. -/
theorem earliestDepStep_invariant (ctx : EarliestCtx) (pfFuel fuel : Nat)
    (dfsIH : ∀ id memo v memo',
      earliestDfs ctx pfFuel fuel id memo = some (v, memo') →
      NonblockedNow ctx memo →
      NonblockedNow ctx memo' ∧
        (∀ k, (alookup k memo).isSome → (alookup k memo').isSome))
    (d : TaskID) (e : NDateTime) (memo : List (TaskID × NDateTime))
    (e' : NDateTime) (m' : List (TaskID × NDateTime))
    (hstep : earliestDepStep ctx pfFuel (earliestDfs ctx pfFuel fuel)
      (some (e, memo)) d = some (e', m'))
    (hinv : NonblockedNow ctx memo) :
    NonblockedNow ctx m' ∧
      (∀ k, (alookup k memo).isSome → (alookup k m').isSome) := by
  rw [earliestDepStep] at hstep
  cases htask : alookup d ctx.tasks with
  | none => simp only [htask] at hstep; exact absurd hstep (by simp)
  | some depTask =>
      simp only [htask] at hstep
      cases hst : depTask.status with
      | completed dt =>
          simp only [hst] at hstep
          simp only [Option.some.injEq, Prod.mk.injEq] at hstep
          rw [← hstep.2]
          exact ⟨hinv, fun k hk => hk⟩
      | blocked bs =>
          simp only [hst] at hstep
          cases hdfs : earliestDfs ctx pfFuel fuel d memo with
          | none => simp only [hdfs] at hstep; exact absurd hstep (by simp)
          | some pair =>
              simp only [hdfs] at hstep
              obtain ⟨depStart, m₁⟩ := pair
              cases hpf : projectFinish ctx.cal ctx.workTick ctx.buffer
                  pfFuel depStart depTask.remaining with
              | none => simp only [hpf] at hstep; exact absurd hstep (by simp)
              | some fin =>
                  simp only [hpf] at hstep
                  simp only [Option.some.injEq, Prod.mk.injEq] at hstep
                  rw [← hstep.2]
                  exact ⟨(dfsIH d memo depStart m₁ hdfs hinv).1,
                    (dfsIH d memo depStart m₁ hdfs hinv).2⟩
      | ready =>
          simp only [hst] at hstep
          cases hdfs : earliestDfs ctx pfFuel fuel d memo with
          | none => simp only [hdfs] at hstep; exact absurd hstep (by simp)
          | some pair =>
              simp only [hdfs] at hstep
              obtain ⟨depStart, m₁⟩ := pair
              cases hpf : projectFinish ctx.cal ctx.workTick ctx.buffer
                  pfFuel depStart depTask.remaining with
              | none => simp only [hpf] at hstep; exact absurd hstep (by simp)
              | some fin =>
                  simp only [hpf] at hstep
                  simp only [Option.some.injEq, Prod.mk.injEq] at hstep
                  rw [← hstep.2]
                  exact ⟨(dfsIH d memo depStart m₁ hdfs hinv).1,
                    (dfsIH d memo depStart m₁ hdfs hinv).2⟩
      | dropped =>
          simp only [hst] at hstep
          cases hdfs : earliestDfs ctx pfFuel fuel d memo with
          | none => simp only [hdfs] at hstep; exact absurd hstep (by simp)
          | some pair =>
              simp only [hdfs] at hstep
              obtain ⟨depStart, m₁⟩ := pair
              cases hpf : projectFinish ctx.cal ctx.workTick ctx.buffer
                  pfFuel depStart depTask.remaining with
              | none => simp only [hpf] at hstep; exact absurd hstep (by simp)
              | some fin =>
                  simp only [hpf] at hstep
                  simp only [Option.some.injEq, Prod.mk.injEq] at hstep
                  rw [← hstep.2]
                  exact ⟨(dfsIH d memo depStart m₁ hdfs hinv).1,
                    (dfsIH d memo depStart m₁ hdfs hinv).2⟩

/-- Folding the blocker step over `none` stays `none`. -/
theorem earliestDepStep_foldl_none (ctx : EarliestCtx) (pfFuel fuel : Nat)
    (deps : List TaskID) :
    deps.foldl (earliestDepStep ctx pfFuel (earliestDfs ctx pfFuel fuel))
      none = none := by
  induction deps with
  | nil => rfl
  | cons d rest ih => simpa [earliestDepStep] using ih

/-- The blocker fold preserves the memo invariant and memo membership. -/
theorem earliestDeps_foldl_invariant (ctx : EarliestCtx) (pfFuel fuel : Nat)
    (dfsIH : ∀ id memo v memo',
      earliestDfs ctx pfFuel fuel id memo = some (v, memo') →
      NonblockedNow ctx memo →
      NonblockedNow ctx memo' ∧
        (∀ k, (alookup k memo).isSome → (alookup k memo').isSome)) :
    ∀ (deps : List TaskID) (e : NDateTime)
      (memo : List (TaskID × NDateTime)) (out : NDateTime × List (TaskID × NDateTime)),
      deps.foldl (earliestDepStep ctx pfFuel (earliestDfs ctx pfFuel fuel))
        (some (e, memo)) = some out →
      NonblockedNow ctx memo →
      NonblockedNow ctx out.2 ∧
        (∀ k, (alookup k memo).isSome → (alookup k out.2).isSome) := by
  intro deps
  induction deps with
  | nil =>
      intro e memo out hout hinv
      simp only [List.foldl_nil, Option.some.injEq] at hout
      rw [← hout]
      exact ⟨hinv, fun k h => h⟩
  | cons d rest ih =>
      intro e memo out hout hinv
      rw [List.foldl_cons] at hout
      cases hstep : earliestDepStep ctx pfFuel (earliestDfs ctx pfFuel fuel)
          (some (e, memo)) d with
      | none =>
          rw [hstep, earliestDepStep_foldl_none] at hout
          exact absurd hout (by simp)
      | some pair =>
          rw [hstep] at hout
          obtain ⟨e', m'⟩ := pair
          obtain ⟨hinv', hmono'⟩ := earliestDepStep_invariant ctx pfFuel fuel
            dfsIH d e memo e' m' hstep hinv
          obtain ⟨hinv2, hmono2⟩ := ih e' m' out hout hinv'
          exact ⟨hinv2, fun k hk => hmono2 k (hmono' k hk)⟩

/-- The earliest-start DFS preserves the memo invariant, keeps every
existing memo entry, and records an entry for the visited id. -/
theorem earliestDfs_invariant (ctx : EarliestCtx) (pfFuel : Nat) :
    ∀ (fuel : Nat) (id : TaskID) (memo : List (TaskID × NDateTime))
      (v : NDateTime) (memo' : List (TaskID × NDateTime)),
      earliestDfs ctx pfFuel fuel id memo = some (v, memo') →
      NonblockedNow ctx memo →
      NonblockedNow ctx memo' ∧
        (∀ k, (alookup k memo).isSome → (alookup k memo').isSome) ∧
        (alookup id memo').isSome := by
  intro fuel
  induction fuel with
  | zero => intro id memo v memo' h; exact absurd h (by simp [earliestDfs])
  | succ fuel ih =>
      intro id memo v memo' h hinv
      have ih' : ∀ id₀ memo₀ v₀ memo₀',
          earliestDfs ctx pfFuel fuel id₀ memo₀ = some (v₀, memo₀') →
          NonblockedNow ctx memo₀ →
          NonblockedNow ctx memo₀' ∧
            (∀ k, (alookup k memo₀).isSome → (alookup k memo₀').isSome) :=
        fun id₀ memo₀ v₀ memo₀' h₀ hi₀ =>
          ⟨(ih id₀ memo₀ v₀ memo₀' h₀ hi₀).1, (ih id₀ memo₀ v₀ memo₀' h₀ hi₀).2.1⟩
      rw [earliestDfs] at h
      cases hmemo : alookup id memo with
      | some t =>
          simp only [hmemo] at h
          simp only [Option.some.injEq, Prod.mk.injEq] at h
          rw [← h.2]
          exact ⟨hinv, fun k hk => hk, by simp [hmemo]⟩
      | none =>
          simp only [hmemo] at h
          cases htask : alookup id ctx.tasks with
          | none => simp only [htask] at h; exact absurd h (by simp)
          | some task =>
              simp only [htask] at h
              cases hst : task.status with
              | blocked bs =>
                  simp only [hst] at h
                  cases hext : earliestExtFold ctx bs.externals with
                  | none => simp only [hext] at h; exact absurd h (by simp)
                  | some e1 =>
                      simp only [hext] at h
                      cases hfold : bs.tasks.foldl
                          (earliestDepStep ctx pfFuel
                            (earliestDfs ctx pfFuel fuel))
                          (some (e1, memo)) with
                      | none => simp only [hfold] at h; exact absurd h (by simp)
                      | some pair =>
                          simp only [hfold] at h
                          obtain ⟨e2, memo2⟩ := pair
                          simp only [Option.some.injEq, Prod.mk.injEq] at h
                          obtain ⟨hfi, hfm⟩ := earliestDeps_foldl_invariant
                            ctx pfFuel fuel ih' bs.tasks e1 memo
                            (e2, memo2) hfold hinv
                          refine ⟨?_, ?_, ?_⟩
                          · rw [← h.2]
                            intro id' task' hid' hnb' v' hv'
                            rw [alookup_ainsert] at hv'
                            by_cases hii : id = id'
                            · subst hii
                              rw [htask] at hid'
                              injection hid' with hteq
                              rw [← hteq] at hnb'
                              exact absurd hst (hnb' bs)
                            · rw [if_neg hii] at hv'
                              exact hfi id' task' hid' hnb' v' hv'
                          · intro k hk
                            rw [← h.2, alookup_ainsert]
                            by_cases hik : id = k
                            · simp [hik]
                            · rw [if_neg hik]
                              exact hfm k hk
                          · rw [← h.2, alookup_ainsert, if_pos rfl]
                            simp
              | ready =>
                  simp only [hst] at h
                  simp only [Option.some.injEq, Prod.mk.injEq] at h
                  refine ⟨?_, ?_, ?_⟩
                  · rw [← h.2]
                    intro id' task' hid' hnb' v' hv'
                    rw [alookup_ainsert] at hv'
                    by_cases hii : id = id'
                    · rw [if_pos hii] at hv'
                      injection hv' with hv'
                      exact hv'.symm
                    · rw [if_neg hii] at hv'
                      exact hinv id' task' hid' hnb' v' hv'
                  · intro k hk
                    rw [← h.2, alookup_ainsert]
                    by_cases hik : id = k
                    · simp [hik]
                    · rw [if_neg hik]; exact hk
                  · rw [← h.2, alookup_ainsert, if_pos rfl]; simp
              | completed dt =>
                  simp only [hst] at h
                  simp only [Option.some.injEq, Prod.mk.injEq] at h
                  refine ⟨?_, ?_, ?_⟩
                  · rw [← h.2]
                    intro id' task' hid' hnb' v' hv'
                    rw [alookup_ainsert] at hv'
                    by_cases hii : id = id'
                    · rw [if_pos hii] at hv'
                      injection hv' with hv'
                      exact hv'.symm
                    · rw [if_neg hii] at hv'
                      exact hinv id' task' hid' hnb' v' hv'
                  · intro k hk
                    rw [← h.2, alookup_ainsert]
                    by_cases hik : id = k
                    · simp [hik]
                    · rw [if_neg hik]; exact hk
                  · rw [← h.2, alookup_ainsert, if_pos rfl]; simp
              | dropped =>
                  simp only [hst] at h
                  simp only [Option.some.injEq, Prod.mk.injEq] at h
                  refine ⟨?_, ?_, ?_⟩
                  · rw [← h.2]
                    intro id' task' hid' hnb' v' hv'
                    rw [alookup_ainsert] at hv'
                    by_cases hii : id = id'
                    · rw [if_pos hii] at hv'
                      injection hv' with hv'
                      exact hv'.symm
                    · rw [if_neg hii] at hv'
                      exact hinv id' task' hid' hnb' v' hv'
                  · intro k hk
                    rw [← h.2, alookup_ainsert]
                    by_cases hik : id = k
                    · simp [hik]
                    · rw [if_neg hik]; exact hk
                  · rw [← h.2, alookup_ainsert, if_pos rfl]; simp

/-- The key fold of `compute_earliest_start_map` preserves the invariant
and populates every processed key. -/
theorem computeEarliestGo_invariant (ctx : EarliestCtx) (pfFuel dfsFuel : Nat) :
    ∀ (keys : List TaskID) (memo m : List (TaskID × NDateTime)),
      computeEarliestStartMapGo ctx pfFuel dfsFuel keys memo = some m →
      NonblockedNow ctx memo →
      NonblockedNow ctx m ∧
        (∀ k, (alookup k memo).isSome → (alookup k m).isSome) ∧
        (∀ k, k ∈ keys → (alookup k m).isSome) := by
  intro keys
  induction keys with
  | nil =>
      intro memo m h hinv
      simp only [computeEarliestStartMapGo, Option.some.injEq] at h
      rw [← h]
      exact ⟨hinv, fun k hk => hk, by simp⟩
  | cons id rest ih =>
      intro memo m h hinv
      rw [computeEarliestStartMapGo] at h
      cases hdfs : earliestDfs ctx pfFuel dfsFuel id memo with
      | none => simp only [hdfs] at h; exact absurd h (by simp)
      | some pair =>
          simp only [hdfs] at h
          obtain ⟨v, memo'⟩ := pair
          obtain ⟨hinv', hmono', hid'⟩ :=
            earliestDfs_invariant ctx pfFuel dfsFuel id memo v memo' hdfs hinv
          obtain ⟨hinv2, hmono2, hkeys2⟩ := ih memo' m h hinv'
          refine ⟨hinv2, fun k hk => hmono2 k (hmono' k hk), ?_⟩
          intro k hk
          rcases List.mem_cons.mp hk with hk | hk
          · subst hk
            exact hmono2 k hid'
          · exact hkeys2 k hk

/-- C8 (amended).  For every scheduling pass whose context build
succeeds, and every task that is not Blocked, the earliest-start map
entry for that task equals the pass's *normalised* start — the first
official workday at or after `now.date()` (falling back to `now.date()`)
at the configured working start time — not, in general, the timestamp
passed to the pass. -/
theorem build_earliest_nonblocked (now0 : NDateTime) (tasks : TaskMap)
    (cal : Calendar) (workingTime : NTime × NTime)
    (workTick bufferTime : TDuration) (pfFuel dfsFuel : Nat)
    (ctx : ScheduleContext)
    (hb : ScheduleContext.build now0 tasks cal workingTime workTick
      bufferTime pfFuel dfsFuel = some ctx)
    (id : TaskID) (task : Task) (hid : alookup id tasks = some task)
    (hnb : ∀ bs, task.status ≠ TaskStatus.blocked bs) :
    alookup id ctx.earliest
      = some (andTime
          (((cal.officialWorkdays (dateOf now0)).head?).getD (dateOf now0))
          workingTime.1) := by
  rw [ScheduleContext.build] at hb
  cases hE : computeEarliestStartMap tasks cal
      (andTime (((cal.officialWorkdays (dateOf now0)).head?).getD
        (dateOf now0)) workingTime.1)
      workingTime.1 workTick bufferTime pfFuel dfsFuel with
  | none => simp only [hE] at hb; exact absurd hb (by simp)
  | some earliest =>
      simp only [hE] at hb
      cases hL : computeLatestStartMap tasks (buildRevGraph tasks) cal
          workingTime.1 workTick bufferTime pfFuel dfsFuel with
      | none => simp only [hL] at hb; exact absurd hb (by simp)
      | some latest =>
          simp only [hL] at hb
          cases hD : computeDependentsMap tasks (buildRevGraph tasks)
              dfsFuel with
          | none => simp only [hD] at hb; exact absurd hb (by simp)
          | some depMap =>
              simp only [hD] at hb
              simp only [Option.some.injEq] at hb
              have hearliest : ctx.earliest = earliest := by
                rw [← hb]
              rw [hearliest]
              rw [computeEarliestStartMap] at hE
              obtain ⟨hinv, _, hkeys⟩ := computeEarliestGo_invariant
                ⟨tasks, cal,
                  andTime (((cal.officialWorkdays (dateOf now0)).head?).getD
                    (dateOf now0)) workingTime.1,
                  workingTime.1, workTick, bufferTime⟩
                pfFuel dfsFuel (taskKeys tasks) [] earliest hE
                (by intro i t hi hn v hv; exact absurd hv (by simp [alookup]))
              have hmem : id ∈ taskKeys tasks := alookup_mem_keys id task tasks hid
              have hsome := hkeys id hmem
              cases hv : alookup id earliest with
              | none => rw [hv] at hsome; exact absurd hsome (by simp)
              | some v =>
                  rw [hinv id task hid hnb v hv]

/-- The calendar of the C8 counterexample: one official workday with
default working time 09:00–17:00. -/
def c8cal : Calendar :=
  { officialDays := [20000], workingTime := (mins 540, mins 1020),
    calendarDays := [(20000, CalendarDay.emptyDay)] }

/-- The C8 pass is started at 10:00, one hour into the working day. -/
def c8now : NDateTime := andTime 20000 (mins 600)

/-- C8 (falsified as stated): a pass started at 10:00 over a single Ready
task records 09:00 — the normalised working start — as the task's
earliest start, not the 10:00 timestamp that was passed. -/
theorem build_earliest_counterexample :
    (ScheduleContext.build c8now [(1, c1task)] c8cal (mins 540, mins 1020)
        (mins 25) (mins 5) 4 4).map (fun ctx => alookup 1 ctx.earliest)
      = some (some (andTime 20000 (mins 540))) ∧
      andTime 20000 (mins 540) ≠ c8now := by
  refine ⟨by decide, by decide⟩

/-- Witness for C8's amended theorem: the same concrete pass, with the
conclusion obtained from `build_earliest_nonblocked`. -/
theorem build_earliest_nonblocked_witness :
    (ScheduleContext.build c8now [(1, c1task)] c8cal (mins 540, mins 1020)
        (mins 25) (mins 5) 4 4).map (fun ctx => alookup 1 ctx.earliest)
      = some (some (andTime 20000 (mins 540))) := by
  cases hb : ScheduleContext.build c8now [(1, c1task)] c8cal
      (mins 540, mins 1020) (mins 25) (mins 5) 4 4 with
  | none =>
      have hs : (ScheduleContext.build c8now [(1, c1task)] c8cal
          (mins 540, mins 1020) (mins 25) (mins 5) 4 4).isSome = true := by
        decide
      rw [hb] at hs
      exact absurd hs (by simp)
  | some ctx =>
      have h := build_earliest_nonblocked c8now [(1, c1task)] c8cal
        (mins 540, mins 1020) (mins 25) (mins 5) 4 4 ctx hb 1 c1task rfl
        (by intro bs hcon; simp [c1task, Task.new] at hcon)
      simp only [Option.map_some']
      rw [h]
      decide

/-! ## C5: the projection round trip

`project_finish(project_start_before(T, R), R) = T` when the work fully
fits, with no interleaving, into the single Available window around `T`.
The premise is formalised as: `T`'s date is an official workday with no
scheduled items, `T` lies inside its working window, and the backward
walk stays inside the window
(`work_start ≤ T.time − (R + (⌈R/tick⌉−1)·buffer)`). -/

/-- A completing backward walk: with `k` the chunk count
(`(k−1)·tick < R ≤ k·tick`) and the whole span inside the window, the
inner loop of `project_start_before` lands exactly `R + k·buffer` before
`t`. -/
theorem psbInner_complete (workTick buffer wsDT : Int)
    (htick : 0 < workTick) (hbuf : 0 ≤ buffer) :
    ∀ (k fuel : Nat) (t rem : Int), 0 < k →
      ((k : Int) - 1) * workTick < rem → rem ≤ (k : Int) * workTick →
      0 < rem → wsDT ≤ t - (rem + ((k : Int) - 1) * buffer) → k < fuel →
      psbInner workTick buffer fuel t wsDT rem
        = some (t - rem - (k : Int) * buffer, 0) := by
  intro k
  induction k with
  | zero => intro fuel t rem h0; exact absurd h0 (lt_irrefl 0)
  | succ n ih =>
      intro fuel t rem _ hklo hkhi hrem hfit hfuel
      obtain ⟨f, rfl⟩ : ∃ f, fuel = f + 1 := ⟨fuel - 1, by omega⟩
      push_cast at hklo hkhi hfit
      have e1 : ((n : Int) + 1 - 1) * workTick = (n : Int) * workTick := by
        ring
      have e2 : ((n : Int) + 1 - 1) * buffer = (n : Int) * buffer := by ring
      rw [e1] at hklo
      rw [e2] at hfit
      have hnb : 0 ≤ (n : Int) * buffer :=
        mul_nonneg (by positivity) hbuf
      have hcond : wsDT < t ∧ 0 < rem := ⟨by linarith, hrem⟩
      rw [psbInner, if_pos hcond]
      dsimp only
      cases n with
      | zero =>
          have hremtick : rem ≤ workTick := by
            simp only [Nat.cast_zero, zero_add, one_mul] at hkhi
            exact hkhi
          have hfit0 : wsDT ≤ t - rem := by
            simp only [Nat.cast_zero, zero_mul, add_zero] at hfit
            exact hfit
          have hslot : rem ≤ min (t - wsDT) workTick :=
            le_min (by linarith) hremtick
          rw [min_eq_right hslot]
          obtain ⟨f', rfl⟩ : ∃ f', f = f' + 1 := ⟨f - 1, by omega⟩
          rw [psbInner, if_neg (by simp)]
          norm_num
          ring
      | succ m =>
          have hm1 : (1 : Int) ≤ ((m : Nat) : Int) + 1 := by
            have : (0 : Int) ≤ (m : Int) := by positivity
            linarith
          have hmtick : workTick ≤ ((m : Int) + 1) * workTick := by
            nlinarith
          have htickrem : workTick < rem := by
            push_cast at hklo
            nlinarith
          have hslot : min (t - wsDT) workTick = workTick := by
            apply min_eq_right
            push_cast at hfit
            nlinarith
          rw [hslot, min_eq_left (le_of_lt htickrem)]
          have hrec := ih f (t - (workTick + buffer)) (rem - workTick)
            (Nat.succ_pos m)
            (by push_cast at hklo ⊢; nlinarith)
            (by push_cast at hkhi ⊢; nlinarith)
            (by linarith)
            (by push_cast at hfit ⊢; nlinarith)
            (by omega)
          rw [hrec]
          congr 2
          push_cast
          ring

/-- A completing forward walk: with `k` the chunk count and enough room
before the window end, the inner loop of `project_finish` advances the
cursor exactly `R + k·buffer`. -/
theorem pfInner_complete (workTick buffer e : Int)
    (htick : 0 < workTick) (hbuf : 0 ≤ buffer) :
    ∀ (k fuel : Nat) (c rem : Int), 0 < k →
      ((k : Int) - 1) * workTick < rem → rem ≤ (k : Int) * workTick →
      0 < rem → c + rem + ((k : Int) - 1) * buffer ≤ e → k < fuel →
      pfInner workTick buffer fuel c e rem
        = some (c + rem + (k : Int) * buffer, 0) := by
  intro k
  induction k with
  | zero => intro fuel c rem h0; exact absurd h0 (lt_irrefl 0)
  | succ n ih =>
      intro fuel c rem _ hklo hkhi hrem hfit hfuel
      obtain ⟨f, rfl⟩ : ∃ f, fuel = f + 1 := ⟨fuel - 1, by omega⟩
      push_cast at hklo hkhi hfit
      have e1 : ((n : Int) + 1 - 1) * workTick = (n : Int) * workTick := by
        ring
      have e2 : ((n : Int) + 1 - 1) * buffer = (n : Int) * buffer := by ring
      rw [e1] at hklo
      rw [e2] at hfit
      have hnb : 0 ≤ (n : Int) * buffer :=
        mul_nonneg (by positivity) hbuf
      have hcond : c < e ∧ 0 < rem := ⟨by linarith, hrem⟩
      rw [pfInner, if_pos hcond]
      dsimp only
      cases n with
      | zero =>
          have hremtick : rem ≤ workTick := by
            simp only [Nat.cast_zero, zero_add, one_mul] at hkhi
            exact hkhi
          have hfit0 : c + rem ≤ e := by
            simp only [Nat.cast_zero, zero_mul, add_zero] at hfit
            exact hfit
          have hslot : rem ≤ min (e - c) workTick :=
            le_min (by linarith) hremtick
          rw [min_eq_right hslot]
          obtain ⟨f', rfl⟩ : ∃ f', f = f' + 1 := ⟨f - 1, by omega⟩
          rw [pfInner, if_neg (by simp)]
          norm_num
      | succ m =>
          have hm1 : (1 : Int) ≤ ((m : Nat) : Int) + 1 := by
            have : (0 : Int) ≤ (m : Int) := by positivity
            linarith
          have htickrem : workTick < rem := by
            push_cast at hklo
            nlinarith
          have hslot : min (e - c) workTick = workTick := by
            apply min_eq_right
            push_cast at hfit
            nlinarith
          rw [hslot, min_eq_left (le_of_lt htickrem)]
          have hrec := ih f (c + workTick + buffer) (rem - workTick)
            (Nat.succ_pos m)
            (by push_cast at hklo ⊢; nlinarith)
            (by push_cast at hkhi ⊢; nlinarith)
            (by linarith)
            (by push_cast at hfit ⊢; nlinarith)
            (by omega)
          rw [hrec]
          congr 2
          push_cast
          ring

/-- On a strictly sorted list containing `d`, dropping the days before
`d` exposes `d` at the head. -/
theorem dropWhile_sorted_mem (d : Int) (l : List Int)
    (hs : l.Sorted (· < ·)) (hm : d ∈ l) :
    ∃ tl, l.dropWhile (fun x => decide (x < d)) = d :: tl := by
  induction l with
  | nil => exact absurd hm (by simp)
  | cons x xs ih =>
      rw [List.sorted_cons] at hs
      by_cases hx : x < d
      · have hdm : d ∈ xs := by
          rcases List.mem_cons.mp hm with h | h
          · exact absurd h.symm (ne_of_lt hx)
          · exact h
        obtain ⟨tl, htl⟩ := ih hs.2 hdm
        exact ⟨tl, by rw [List.dropWhile_cons_of_pos (by simpa using hx), htl]⟩
      · have hdx : d = x := by
          rcases List.mem_cons.mp hm with h | h
          · exact h
          · exact absurd (hs.1 d h) hx
        exact ⟨xs, by
          rw [List.dropWhile_cons_of_neg (by simpa using hx), hdx]⟩

/-- On a strictly sorted list containing `d`, the reverse of the days at
or before `d` starts with `d`. -/
theorem filter_le_reverse_sorted_mem (d : Int) (l : List Int)
    (hs : l.Sorted (· < ·)) (hm : d ∈ l) :
    ∃ tl, (l.filter (fun x => decide (x ≤ d))).reverse = d :: tl := by
  induction l with
  | nil => exact absurd hm (by simp)
  | cons x xs ih =>
      rw [List.sorted_cons] at hs
      rcases List.mem_cons.mp hm with hdx | hdm
      · have hfilter : xs.filter (fun x => decide (x ≤ d)) = [] := by
          apply List.filter_eq_nil_iff.mpr
          intro y hy
          have := hs.1 y hy
          simp only [decide_eq_true_eq]
          omega
        refine ⟨[], ?_⟩
        rw [List.filter_cons_of_pos (by simp [hdx]), hfilter]
        simp [hdx]
      · obtain ⟨tl, htl⟩ := ih hs.2 hdm
        have hxd : x < d := hs.1 d hdm
        refine ⟨tl ++ [x], ?_⟩
        rw [List.filter_cons_of_pos (by simp; omega), List.reverse_cons, htl]
        rfl

/-- A datetime assembled from a day number and an in-range time splits
back into them. -/
theorem dateOf_timeOf_andTime (d x : Int) (h0 : 0 ≤ x) (h1 : x < nsPerDay) :
    dateOf (andTime d x) = d ∧ timeOf (andTime d x) = x := by
  have hns : (0 : Int) < nsPerDay := by norm_num [nsPerDay, nsPerMinute]
  constructor
  · show (d * nsPerDay + x) / nsPerDay = d
    rw [add_comm, mul_comm, Int.add_mul_ediv_left x d (ne_of_gt hns),
      Int.ediv_eq_zero_of_lt h0 h1, zero_add]
  · show (d * nsPerDay + x) % nsPerDay = x
    rw [add_comm, mul_comm, Int.add_mul_emod_self_left,
      Int.emod_eq_of_lt h0 h1]

/-- Splitting any datetime into its date and time and reassembling is the
identity. -/
theorem andTime_dateOf_timeOf (x : Int) : andTime (dateOf x) (timeOf x) = x := by
  show x / nsPerDay * nsPerDay + x % nsPerDay = x
  rw [mul_comm]
  exact Int.ediv_add_emod x nsPerDay

/-- The time component of a datetime is within the day. -/
theorem timeOf_bounds (x : Int) : 0 ≤ timeOf x ∧ timeOf x < nsPerDay := by
  have hns : (0 : Int) < nsPerDay := by norm_num [nsPerDay, nsPerMinute]
  exact ⟨Int.emod_nonneg x (ne_of_gt hns), Int.emod_lt_of_pos x hns⟩

/-- On an official day with no scheduled items, with `until` inside the
working window, the reverse enumeration starts with the single Available
window `[work_start, until.time]` of that day. -/
theorem timeWindowsRev_single_day (cal : Calendar) (T : Int)
    (ws we : Int)
    (hsort : cal.officialDays.Sorted (· < ·))
    (hmem : dateOf T ∈ cal.officialDays)
    (hwt : (cal.workingTimeOn (dateOf T)).getD cal.workingTime = (ws, we))
    (hitems : ((alookup (dateOf T) cal.calendarDays).map
      (·.scheduledItems)).getD [] = [])
    (hwlo : ws < timeOf T) (hwhi : timeOf T ≤ we) :
    ∃ rest, cal.timeWindowsRev T
      = ⟨.available, dateOf T, ws, timeOf T⟩ :: rest := by
  obtain ⟨tl, htl⟩ := filter_le_reverse_sorted_mem (dateOf T)
    cal.officialDays hsort hmem
  refine ⟨(tl.flatMap (cal.windowsOfDayRev T)), ?_⟩
  rw [Calendar.timeWindowsRev, htl, List.flatMap_cons]
  have hday : cal.windowsOfDayRev T (dateOf T)
      = [⟨.available, dateOf T, ws, timeOf T⟩] := by
    rw [Calendar.windowsOfDayRev, hwt, hitems]
    simp only [List.reverse_nil, List.foldl_nil, eq_self_iff_true, if_true,
      min_eq_right hwhi, List.nil_append, if_pos hwlo]
  rw [hday]
  rfl

/-- On an official day with no scheduled items, with `from` inside the
working window, the forward enumeration starts with the single Available
window of that day (its start is `from.time` when that is after the
working start, else the working start). -/
theorem timeWindows_single_day (cal : Calendar) (start : Int)
    (ws we : Int)
    (hsort : cal.officialDays.Sorted (· < ·))
    (hmem : dateOf start ∈ cal.officialDays)
    (hwt : (cal.workingTimeOn (dateOf start)).getD cal.workingTime
      = (ws, we))
    (hitems : ((alookup (dateOf start) cal.calendarDays).map
      (·.scheduledItems)).getD [] = [])
    (hlt : (if ws < timeOf start then timeOf start else ws) < we) :
    ∃ rest, cal.timeWindows start
      = ⟨.available, dateOf start,
          if ws < timeOf start then timeOf start else ws, we⟩ :: rest := by
  obtain ⟨tl, htl⟩ := dropWhile_sorted_mem (dateOf start)
    cal.officialDays hsort hmem
  refine ⟨(tl.flatMap (cal.windowsOfDayFwd start)), ?_⟩
  rw [Calendar.timeWindows, Calendar.officialWorkdays, htl,
    List.flatMap_cons]
  have hday : cal.windowsOfDayFwd start (dateOf start)
      = [⟨.available, dateOf start,
          if ws < timeOf start then timeOf start else ws, we⟩] := by
    rw [Calendar.windowsOfDayFwd, hwt, hitems]
    simp only [sortByStart, List.foldl_nil, eq_self_iff_true, true_and,
      List.nil_append]
    by_cases hws : ws < timeOf start
    · simp only [if_pos hws]
      rw [if_pos (by rw [if_pos hws] at hlt; exact hlt)]
    · simp only [if_neg hws]
      rw [if_pos (by rw [if_neg hws] at hlt; exact hlt)]
  rw [hday]
  rfl

/-- C5.  For every calendar, work tick, buffer, finish time `T` and
remaining duration `R` such that the work fully fits, with no
interleaving, into the single Available window of `T`'s (official,
item-free) day — `k` being the chunk count `⌈R/tick⌉` and
`work_start ≤ T.time − (R + (k−1)·buffer)` — the round trip
`project_finish(project_start_before(T, R), R)` returns exactly `T`. -/
theorem project_roundtrip (cal : Calendar) (workTick buffer : TDuration)
    (T R : Int) (ws we : Int) (k fB fF : Nat)
    (hsort : cal.officialDays.Sorted (· < ·))
    (hmem : dateOf T ∈ cal.officialDays)
    (hwt : (cal.workingTimeOn (dateOf T)).getD cal.workingTime = (ws, we))
    (hitems : ((alookup (dateOf T) cal.calendarDays).map
      (·.scheduledItems)).getD [] = [])
    (hws0 : 0 ≤ ws) (hwlo : ws < timeOf T) (hwhi : timeOf T ≤ we)
    (htick : 0 < workTick) (hbuf : 0 ≤ buffer) (hR : 0 < R)
    (hk0 : 0 < k) (hklo : ((k : Int) - 1) * workTick < R)
    (hkhi : R ≤ (k : Int) * workTick)
    (hfit : ws ≤ timeOf T - (R + ((k : Int) - 1) * buffer))
    (hfB : k < fB) (hfF : k < fF) :
    (projectStartBefore cal workTick buffer fB T R).bind
      (fun start => projectFinish cal workTick buffer fF start R)
      = some T := by
  have hkb : 0 ≤ ((k : Int) - 1) * buffer := by
    apply mul_nonneg _ hbuf
    have : (1 : Int) ≤ (k : Int) := by exact_mod_cast hk0
    linarith
  obtain ⟨restR, hrev⟩ := timeWindowsRev_single_day cal T ws we hsort hmem
    hwt hitems hwlo hwhi
  have hT : dateOf T * nsPerDay + timeOf T = T := andTime_dateOf_timeOf T
  have havail : TimeWindow.available
      ⟨.available, dateOf T, ws, timeOf T⟩ = true := rfl
  have hend : min (TimeWindow.endDatetime
      ⟨.available, dateOf T, ws, timeOf T⟩) T = T := by
    show min (andTime (dateOf T) (timeOf T)) T = T
    rw [andTime_dateOf_timeOf T, min_self]
  -- the backward walk lands at T − R − (k−1)·buffer
  have hinnerB := psbInner_complete workTick buffer
    (andTime (dateOf T) ws) htick hbuf k fB T R hk0 hklo hkhi hR
    (by
      show dateOf T * nsPerDay + ws ≤ T - (R + ((k : Int) - 1) * buffer)
      linarith)
    hfB
  have hpsb : projectStartBefore cal workTick buffer fB T R
      = some (T - R - ((k : Int) - 1) * buffer) := by
    rw [projectStartBefore, hrev, projectStartBeforeGo, if_pos havail]
    dsimp only
    rw [hend]
    rw [show TimeWindow.startDatetime
      ⟨TimeKind.available, dateOf T, ws, timeOf T⟩
        = andTime (dateOf T) ws from rfl]
    simp only [hinnerB]
    rw [if_pos (le_refl (0 : Int))]
    congr 1
    ring
  rw [hpsb, Option.some_bind]
  -- facts about the computed start
  set start := T - R - ((k : Int) - 1) * buffer with hstart
  have htOfT := timeOf_bounds T
  have hts : start = andTime (dateOf T)
      (timeOf T - R - ((k : Int) - 1) * buffer) := by
    show start = dateOf T * nsPerDay + (timeOf T - R - ((k : Int) - 1) * buffer)
    rw [hstart]
    linarith [hT]
  have htsBounds : 0 ≤ timeOf T - R - ((k : Int) - 1) * buffer ∧
      timeOf T - R - ((k : Int) - 1) * buffer < nsPerDay :=
    ⟨by linarith, by linarith [htOfT.2]⟩
  obtain ⟨hdStart, htStart⟩ := dateOf_timeOf_andTime (dateOf T)
    (timeOf T - R - ((k : Int) - 1) * buffer) htsBounds.1 htsBounds.2
  have hdStart' : dateOf start = dateOf T := by rw [hts, hdStart]
  have htStart' : timeOf start = timeOf T - R - ((k : Int) - 1) * buffer := by
    rw [hts, htStart]
  have hs0le : (if ws < timeOf start then timeOf start else ws)
      ≤ timeOf start := by
    by_cases h : ws < timeOf start
    · rw [if_pos h]
    · rw [if_neg h]
      rw [htStart']
      linarith
  have hs0lt : (if ws < timeOf start then timeOf start else ws) < we := by
    have h1 : timeOf start < timeOf T := by rw [htStart']; linarith
    calc (if ws < timeOf start then timeOf start else ws)
        ≤ timeOf start := hs0le
      _ < timeOf T := h1
      _ ≤ we := hwhi
  obtain ⟨restF, hfwd⟩ := timeWindows_single_day cal start ws we hsort
    (by rw [hdStart']; exact hmem)
    (by rw [hdStart']; exact hwt)
    (by rw [hdStart']; exact hitems) hs0lt
  have havailF : TimeWindow.available
      ⟨.available, dateOf start,
        if ws < timeOf start then timeOf start else ws, we⟩ = true := rfl
  have hcursor : max (TimeWindow.startDatetime
      ⟨.available, dateOf start,
        if ws < timeOf start then timeOf start else ws, we⟩) start
      = start := by
    apply max_eq_right
    show andTime (dateOf start)
      (if ws < timeOf start then timeOf start else ws) ≤ start
    conv_rhs => rw [← andTime_dateOf_timeOf start]
    show dateOf start * nsPerDay
        + (if ws < timeOf start then timeOf start else ws)
      ≤ dateOf start * nsPerDay + timeOf start
    linarith [hs0le]
  have hendF : TimeWindow.endDatetime
      ⟨.available, dateOf start,
        if ws < timeOf start then timeOf start else ws, we⟩
      = andTime (dateOf start) we := rfl
  have hinnerF := pfInner_complete workTick buffer (andTime (dateOf start) we)
    htick hbuf k fF start R hk0 hklo hkhi hR
    (by
      show start + R + ((k : Int) - 1) * buffer
        ≤ dateOf start * nsPerDay + we
      rw [hdStart']
      have h2 : start + R + ((k : Int) - 1) * buffer = T := by
        rw [hstart]; ring
      rw [h2]
      linarith [hT])
    hfF
  rw [projectFinish, hfwd, projectFinishGo, if_pos havailF]
  rw [hcursor, hendF]
  simp only [hinnerF]
  rw [if_pos (le_refl (0 : Int))]
  congr 1
  rw [hstart]
  ring

/-- The finish instant of the C5 witness: 17:00 on the official day
20208 of `c7cal`. -/
def c5T : NDateTime := andTime 20208 (mins 1020)

/-- Witness for C5 at a concrete input: on `c7cal` (working time
09:00–17:00, no busy items), with `T` = 17:00, `R` = 50 min,
tick = 25 min, buffer = 5 min (so `k = 2` chunks), the round trip
returns `T`; the intermediate start is 16:05. -/
theorem project_roundtrip_witness :
    (projectStartBefore c7cal (mins 25) (mins 5) 3 c5T (mins 50)).bind
      (fun start => projectFinish c7cal (mins 25) (mins 5) 3 start (mins 50))
      = some c5T ∧
    projectStartBefore c7cal (mins 25) (mins 5) 3 c5T (mins 50)
      = some (andTime 20208 (mins 965)) := by
  constructor
  · exact project_roundtrip c7cal (mins 25) (mins 5) c5T (mins 50)
      (mins 540) (mins 1020) 2 3 3
      (by decide) (by decide) (by decide) (by decide)
      (by decide) (by decide) (by decide) (by decide)
      (by decide) (by decide) (by decide) (by decide)
      (by decide) (by decide) (by decide) (by decide)
  · decide

end LazyScheduler
